import Mathlib

/-!
Verification development for the PRT particle-file I/O library.

The definitions below are shallow embeddings of the C++ sources:
  - `prtio.data_types`            from src/prtio/detail/data_types.hpp
  - `prtio.detail` (conversion)   from src/prtio/detail/conversion.hpp
  - `prtio.detail` (names)        from src/prtio/prt_layout.hpp and
                                  src/prtio/detail/prt_header.hpp
  - `prtio.channel_transformation` from src/prtio/prt_transforms.hpp
  - `prtio.prt_layout`            from src/prtio/prt_layout.hpp
Machine integers that matter are modelled as Nat/Int with explicit bounds;
errors (C++ exceptions) are modelled with `Except String`.
-/

namespace prt

namespace data_types

/-- The scalar type tags of the PRT format, in the order of the C enum
`data_types::enum_t` (data_types.hpp). -/
inductive enum_t where
  | type_int16
  | type_int32
  | type_int64
  | type_float16
  | type_float32
  | type_float64
  | type_uint16
  | type_uint32
  | type_uint64
  | type_int8
  | type_uint8
deriving DecidableEq, Fintype

/-- Numeric value of each enum tag (the C enum assigns 0,1,2,... in order). -/
def enum_t.val : enum_t → Nat
  | .type_int16 => 0
  | .type_int32 => 1
  | .type_int64 => 2
  | .type_float16 => 3
  | .type_float32 => 4
  | .type_float64 => 5
  | .type_uint16 => 6
  | .type_uint32 => 7
  | .type_uint64 => 8
  | .type_int8 => 9
  | .type_uint8 => 10

/-- The byte-size table `data_types::sizes`, indexed by type tag. -/
def sizes : enum_t → Nat
  | .type_int16 => 2
  | .type_int32 => 4
  | .type_int64 => 8
  | .type_float16 => 2
  | .type_float32 => 4
  | .type_float64 => 8
  | .type_uint16 => 2
  | .type_uint32 => 4
  | .type_uint64 => 8
  | .type_int8 => 1
  | .type_uint8 => 1

end data_types

namespace detail

open data_types

/-- `detail::is_float` (conversion.hpp): `type >= type_float16 && type <= type_float64`. -/
def is_float (t : enum_t) : Bool :=
  decide (enum_t.val .type_float16 ≤ t.val ∧ t.val ≤ enum_t.val .type_float64)

/-- `detail::is_integral` (conversion.hpp). -/
def is_integral (t : enum_t) : Bool := !is_float t

/-- `detail::is_signed` (conversion.hpp): `type < type_uint16 || type == type_int8`.
Note that the comparison `type < type_uint16` makes every floating point tag
count as signed as well. -/
def is_signed (t : enum_t) : Bool :=
  decide (t.val < enum_t.val .type_uint16) || decide (t = .type_int8)

/-- `detail::is_compatible` (conversion.hpp): decides whether data of type
`src` may be converted to type `dest` when binding a channel. -/
def is_compatible (dest src : enum_t) : Bool :=
  if is_float src then is_float dest
  else if is_signed src then is_signed dest && decide (sizes src ≤ sizes dest)
  else if is_signed dest then decide (sizes src < sizes dest)
  else decide (sizes src ≤ sizes dest)

/-- The C locale `isalpha` restricted to single-byte characters, as used by
`detail::is_valid_name` (prt_layout.hpp) under `std::locale("C")`. -/
def isalphaC (c : Char) : Bool :=
  decide ('A' ≤ c ∧ c ≤ 'Z') || decide ('a' ≤ c ∧ c ≤ 'z')

/-- The C locale `isalnum`. -/
def isalnumC (c : Char) : Bool :=
  isalphaC c || decide ('0' ≤ c ∧ c ≤ '9')

/-- `detail::is_valid_name` (prt_layout.hpp): first character must be
alphabetic or an underscore, every later character alphanumeric or an
underscore.  The source performs no length check. -/
def is_valid_name (name : String) : Bool :=
  match name.data with
  | [] => false
  | c :: rest => (isalphaC c || decide (c = '_')) && rest.all (fun d => isalnumC d || decide (d = '_'))

/-- The loop of `detail::is_valid_channel_name` (prt_header.hpp):
`while( *++name != 0 ) if( ++length >= 32 || (!isalnum(*name) && *name == UNDERSCORE) ) return false;`
The underscore comparison in the source is `== `, not `!=`. -/
def is_valid_channel_name_loop : Nat → List Char → Bool
  | _, [] => true
  | len, c :: rest =>
    if decide (32 ≤ len + 1) || (!isalnumC c && decide (c = '_')) then false
    else is_valid_channel_name_loop (len + 1) rest

/-- `detail::is_valid_channel_name` (prt_header.hpp). -/
def is_valid_channel_name (name : String) : Bool :=
  match name.data with
  | [] => false
  | c :: rest =>
    if !isalphaC c && decide (c ≠ '_') then false
    else is_valid_channel_name_loop 1 rest

end detail

namespace channel_transformation

open data_types

/-- `channel_transformation::option` (prt_transforms.hpp). -/
inductive option where
  | unspecified
  | point
  | vector
  | normal
  | orientation
  | rotation
  | scalar
  | invalid
deriving DecidableEq, Fintype

/-- `channel_transformation::is_compatible` (prt_transforms.hpp). -/
def is_compatible (xformType : option) (type : enum_t) (arity : Nat) : Bool :=
  match xformType with
  | .point | .vector | .normal => detail.is_float type && decide (arity = 3)
  | .orientation | .rotation => detail.is_float type && decide (arity = 4)
  | .scalar => detail.is_float type && decide (arity = 1)
  | _ => true

end channel_transformation

namespace detail

/-- `detail::prt_channel` (prt_layout.hpp). -/
structure prt_channel where
  offset : Nat
  arity : Nat
  type : data_types.enum_t
  xformType : channel_transformation.option
deriving DecidableEq

end detail

/-- `prt_layout` (prt_layout.hpp).  `std::map` is modelled as an association
list; since `add_channel` rejects duplicate names before inserting, keys are
always distinct, so lookup, size and insertion behave exactly as the map.
`channels` is the `m_channels` vector of names for integer indexing. -/
structure prt_layout where
  channelMap : List (String × detail.prt_channel)
  channels : List String
  totalSize : Nat
deriving DecidableEq

/-- The private `prt_layout` constructor: empty map, empty name vector,
`m_totalSize = 0`. -/
def prt_layout.init : prt_layout := ⟨[], [], 0⟩

/-- The transform-defaulting step inside `prt_layout::add_channel`: an
unspecified transform becomes `point` when the channel name is exactly
`Position`. -/
def default_xform (name : String) (xformType : channel_transformation.option) :
    channel_transformation.option :=
  if xformType = .unspecified then
    (if name = "Position" then .point else xformType)
  else xformType

/-- `prt_layout::add_channel` (prt_layout.hpp): validates the name, rejects
duplicates, defaults the transform to `point` for the name `Position`,
validates transform compatibility, then inserts the channel, records the name
and adds `sizes[type] * arity` to the running total. -/
def prt_layout.add_channel (l : prt_layout) (name : String) (type : data_types.enum_t)
    (arity : Nat) (offset : Nat)
    (xformType : channel_transformation.option := .unspecified) :
    Except String prt_layout :=
  if !detail.is_valid_name name then .error ("Invalid channel name " ++ name)
  else if (l.channelMap.lookup name).isSome then .error ("Duplicate channel " ++ name)
  else if !channel_transformation.is_compatible (default_xform name xformType) type arity then
    .error ("Incompatible transformation for channel " ++ name)
  else .ok { channelMap := l.channelMap ++ [(name, ⟨offset, arity, type, default_xform name xformType⟩)]
           , channels := l.channels ++ [name]
           , totalSize := l.totalSize + data_types.sizes type * arity }

/-- `prt_layout::clear` (prt_layout.hpp): clears `m_channelMap` and resets
`m_totalSize`.  The source does not touch `m_channels`. -/
def prt_layout.clear (l : prt_layout) : prt_layout :=
  { channelMap := [], channels := l.channels, totalSize := 0 }

/-- `prt_layout::num_channels`: the size of `m_channelMap`. -/
def prt_layout.num_channels (l : prt_layout) : Nat := l.channelMap.length

/-- `prt_layout::has_channel`. -/
def prt_layout.has_channel (l : prt_layout) (name : String) : Bool :=
  (l.channelMap.lookup name).isSome

/-- `prt_layout::get_channel_name`: indexes the `m_channels` vector.
Out-of-range access is undefined in the source; the model totalises it with
the empty string. -/
def prt_layout.get_channel_name (l : prt_layout) (index : Nat) : String :=
  l.channels.getD index ""

/-- `prt_layout::get_channel`: map lookup, throwing when absent. -/
def prt_layout.get_channel (l : prt_layout) (name : String) : Except String detail.prt_channel :=
  match l.channelMap.lookup name with
  | some ch => .ok ch
  | none => .error ("There is no channel named " ++ name)

/-- `prt_layout::size`: the total record size `m_totalSize`. -/
def prt_layout.size (l : prt_layout) : Nat := l.totalSize

/-- True when an Except value is a success. -/
def exOk {α : Type} (e : Except String α) : Bool :=
  match e with
  | .ok _ => true
  | .error _ => false

instance {ε α : Type} [DecidableEq ε] [DecidableEq α] : DecidableEq (Except ε α) := fun x y =>
  match x, y with
  | .ok a, .ok b =>
    if h : a = b then isTrue (by rw [h]) else isFalse (fun he => by cases he; exact h rfl)
  | .error a, .error b =>
    if h : a = b then isTrue (by rw [h]) else isFalse (fun he => by cases he; exact h rfl)
  | .ok _, .error _ => isFalse (fun h => by cases h)
  | .error _, .ok _ => isFalse (fun h => by cases h)

/-! ### Record buffers and converters -/

/-- Bytes are modelled as natural numbers; `spliceAt` is `memcpy` of `src`
into `buf` at byte offset `off`. -/
def spliceAt (buf : List Nat) (off : Nat) (src : List Nat) : List Nat :=
  buf.take off ++ (src ++ buf.drop (off + src.length))

/-- Reading `len` bytes at offset `off`. -/
def extractBytes (buf : List Nat) (off len : Nat) : List Nat :=
  (buf.drop off).take len

/-- Byte-level behaviour of `prt_converter<TDest,TSrc>::apply` on `arity`
elements (conversion.hpp).  For `TDest = TSrc` the source specialization is a
`memcpy`, so the bytes are copied verbatim.  Converters between distinct
numeric types perform an element-wise `static_cast` whose IEEE-754 bit-level
behaviour is outside this embedding; only their output length
(`sizes TDest * arity` bytes) is represented, and no theorem below depends
on that branch. -/
def detail.convert_apply (TDest TSrc : data_types.enum_t) (arity : Nat)
    (src : List Nat) : List Nat :=
  if TDest = TSrc then src
  else List.replicate (data_types.sizes TDest * arity) 0

/-! ### Output stream (prt_ostream.hpp, prt_ofstream.hpp) -/

/-- `prt_ostream::bound_channel`: destination offset `dest` in the record,
the arity, and the (caller, disk) type pair that selected the cached
converter `copyFn = get_write_converter<T>(destType)`.  The caller memory
pointer is modelled by passing the pointed-to bytes to
`write_next_particle`. -/
structure obound_channel where
  arity : Nat
  dest : Nat
  srcType : data_types.enum_t
  destType : data_types.enum_t
deriving DecidableEq

/-- State of a `prt_ofstream`.  The compressed body is modelled as the list
of records committed by `write_impl`: zlib is an external, lossless
streaming filter, so transport preserves the record bytes.  Byte-level
header output and patching are modelled separately below. -/
structure prt_ofstream where
  layout : prt_layout
  boundChannels : List obound_channel
  isOpen : Bool
  fileRecords : List (List Nat)
  particleCount : Nat
deriving DecidableEq

/-- A `prt_ofstream` as default-constructed. -/
def prt_ofstream.init : prt_ofstream := ⟨prt_layout.init, [], false, [], 0⟩

/-- `prt_ostream::bind` (prt_ostream.hpp).  `destTypeArg = none` models the
C++ default argument `destType = data_types::traits<T>::data_type()`.  The
source performs no stream-state check before mutating the layout.  The final
null test on `get_write_converter<T>(destType)` is omitted: that switch
covers every `enum_t` tag, so for the tags representable here it never
returns null. -/
def prt_ofstream.bind (s : prt_ofstream) (name : String) (T : data_types.enum_t)
    (arity : Nat) (destTypeArg : Option data_types.enum_t := none) :
    Except String prt_ofstream :=
  if s.layout.has_channel name then .error ("Channel " ++ name ++ " is already bound")
  else if !detail.is_compatible (destTypeArg.getD T) T then
    .error ("Incompatible types for channel " ++ name)
  else
    match s.layout.add_channel name (destTypeArg.getD T) arity s.layout.size with
    | .error e => .error e
    | .ok l2 =>
      .ok { s with layout := l2,
                   boundChannels := s.boundChannels ++ [⟨arity, s.layout.size, T, destTypeArg.getD T⟩] }

/-- The record assembly of `prt_ostream::write_next_particle`: a scratch
buffer of `size` bytes is filled by running each cached converter at its
destination offset.  `srcs` supplies, per bound channel, the caller-memory
bytes for this record.  The `alloca` scratch buffer is modelled
zero-initialized; when the bound channels tile the record (as in every
bind-built stream) every byte is overwritten. -/
def assembleRecord (size : Nat) (bound : List obound_channel)
    (srcs : List (List Nat)) : List Nat :=
  (bound.zip srcs).foldl
    (fun buf p => spliceAt buf p.1.dest
      (detail.convert_apply p.1.destType p.1.srcType p.1.arity p.2))
    (List.replicate size 0)

/-- `prt_ostream::write_next_particle` followed by `prt_ofstream::write_impl`:
assemble the record, commit it to the stream, increment `m_particleCount`.
The bounding-box tracking of `write_impl` is modelled separately
(`track_bounds`). -/
def prt_ofstream.write_next_particle (s : prt_ofstream)
    (srcs : List (List Nat)) : prt_ofstream :=
  { s with fileRecords := s.fileRecords ++ [assembleRecord s.layout.size s.boundChannels srcs]
         , particleCount := s.particleCount + 1 }

/-- `prt_ofstream::open`: opens the sink, writes the header, initializes
zlib.  The only effect visible to the record-level operations modelled here
is that the stream is now open; the byte-level header output is modelled
below. -/
def prt_ofstream.openStream (s : prt_ofstream) : prt_ofstream :=
  { s with isOpen := true }

/-- `prt_ofstream::close`: flushes, patches the header fields, closes the
sink, clears the layout (`m_layout.clear()`) and resets the particle count.
The base-class member `m_boundChannels` is not touched. -/
def prt_ofstream.close (s : prt_ofstream) : prt_ofstream :=
  { s with isOpen := false, layout := s.layout.clear, particleCount := 0 }

/-! ### Input stream (prt_istream.hpp, prt_ifstream.hpp) -/

/-- `prt_istream::bound_channel`: source offset `src` in the record, the
arity, the caller type `T` and the channel type that selected
`copyFn = get_read_converter<T>(ch.type)`. -/
structure ibound_channel where
  arity : Nat
  src : Nat
  T : data_types.enum_t
  chType : data_types.enum_t
deriving DecidableEq

/-- State of a `prt_istream` whose header has been parsed: the layout
rebuilt from the channel table, the bindings, and the records remaining in
the decompressed body. -/
structure prt_istream where
  layout : prt_layout
  boundChannels : List ibound_channel
  records : List (List Nat)
deriving DecidableEq

/-- `prt_istream::bind` (prt_istream.hpp): looks the channel up
(`get_channel` throws when absent), checks `is_compatible(T, ch.type)`,
checks the arity matches, then caches the binding.  As on the write side the
converter-null test is omitted because `get_read_converter` covers every
tag. -/
def prt_istream.bind (s : prt_istream) (name : String) (T : data_types.enum_t)
    (arity : Nat) : Except String prt_istream :=
  match s.layout.channelMap.lookup name with
  | none => .error ("There is no channel named " ++ name)
  | some ch =>
    if !detail.is_compatible T ch.type then
      .error ("Incompatible types for channel " ++ name)
    else if decide (arity ≠ ch.arity) then
      .error ("Incompatible arity for channel " ++ name)
    else .ok { s with boundChannels := s.boundChannels ++ [⟨ch.arity, ch.offset, T, ch.type⟩] }

/-- `prt_istream::read_next_particle`: `read_impl` fills a scratch buffer
with the next record (returning false at EOF), then every cached binding
extracts its bytes through its converter. -/
def prt_istream.read_next_particle (s : prt_istream) :
    Option (prt_istream × List (List Nat)) :=
  match s.records with
  | [] => none
  | r :: rest =>
    some ({ s with records := rest },
      s.boundChannels.map (fun b =>
        detail.convert_apply b.T b.chType b.arity
          (extractBytes r b.src (data_types.sizes b.chType * b.arity))))

/-! ### Driver loops for the round-trip statement -/

/-- One channel specification as the user passes it to `bind` on both sides:
name, element type and arity. -/
def chan_spec : Type := String × data_types.enum_t × Nat

/-- Successive `bind` calls on an output stream. -/
def obindAll (s : prt_ofstream) : List chan_spec → Except String prt_ofstream
  | [] => .ok s
  | sp :: rest =>
    match s.bind sp.1 sp.2.1 sp.2.2 with
    | .error e => .error e
    | .ok s2 => obindAll s2 rest

/-- Successive `bind` calls on an input stream. -/
def ibindAll (s : prt_istream) : List chan_spec → Except String prt_istream
  | [] => .ok s
  | sp :: rest =>
    match s.bind sp.1 sp.2.1 sp.2.2 with
    | .error e => .error e
    | .ok s2 => ibindAll s2 rest

/-- `write_next_particle` once per record. -/
def writeAll (s : prt_ofstream) (recs : List (List (List Nat))) : prt_ofstream :=
  recs.foldl (fun st srcs => st.write_next_particle srcs) s

/-- The read loop: call `read_next_particle` until it reports EOF,
collecting the extracted values of each bound channel. -/
def readLoop : Nat → prt_istream → List (List (List Nat))
  | 0, _ => []
  | n + 1, s =>
    match s.read_next_particle with
    | none => []
    | some (s2, out) => out :: readLoop n s2

/-- The reader state after `prt_ifstream::open` on the file the writer
produced: the channel table stores, per channel, exactly the name, type,
arity and offset of the writer layout, and `read_header` adds them back with
`add_channel` in the same order, reproducing the layout; inflating the body
yields the written records in order (zlib deflate/inflate is lossless). -/
def istreamOfWriter (s : prt_ofstream) : prt_istream :=
  ⟨s.layout, [], s.fileRecords⟩

/-- The number of record bytes a bound output channel writes:
`sizeof(TDest) * arity`. -/
def obyteLen (b : obound_channel) : Nat := data_types.sizes b.destType * b.arity

/-- The bound channels occupy consecutive byte ranges starting at `start`.
This is the shape `bind` produces, since each call places the new channel at
the current end of the layout. -/
def seqFrom : Nat → List obound_channel → Prop
  | _, [] => True
  | start, b :: bs => b.dest = start ∧ seqFrom (start + obyteLen b) bs

/-- The correspondence established by a sequence of successful `bind` calls
on a fresh output stream: the bound channels tile the record from offset 0,
the layout size is the sum of their widths, nothing has been written, and
each specification is bound same-typed at the offset recorded in the
layout. -/
def obind_corr (specs : List chan_spec) (s : prt_ofstream) : Prop :=
  seqFrom 0 s.boundChannels ∧
  s.layout.totalSize = (s.boundChannels.map obyteLen).sum ∧
  s.fileRecords = [] ∧
  List.Forall₂ (fun (sp : chan_spec) (b : obound_channel) =>
    b.srcType = sp.2.1 ∧ b.destType = sp.2.1 ∧ b.arity = sp.2.2 ∧
    (∃ x, s.layout.channelMap.lookup sp.1 = some ⟨b.dest, b.arity, b.destType, x⟩))
    specs s.boundChannels

/-! ### Bounding-box tracking (prt_ofstream.hpp)

`write_impl` performs only `<` and `>` comparisons on the float32 Position
coordinates and copies them; float32 values are a subset of the rationals
and float comparison agrees with the rational order, so the tracking is
modelled exactly over `ℚ`. -/

/-- `std::numeric_limits<float>::max()`: the largest finite float32,
`2^128 - 2^104`, as an exact rational numeral (see
`float_limit_max_value`). -/
def float_limit_max : ℚ := 340282346638528859811704183484516925440

/-- `std::numeric_limits<float>::min()`: the smallest positive normalized
float32, `2^-126`, as an exact rational (see `float_limit_min_value`).
Note this is positive, not the most negative float. -/
def float_limit_min : ℚ := mkRat 1 85070591730234615865843651857942052864

/-- The `m_bounds` array: min xyz then max xyz. -/
structure bounds_state where
  minx : ℚ
  miny : ℚ
  minz : ℚ
  maxx : ℚ
  maxy : ℚ
  maxz : ℚ
deriving DecidableEq

/-- The `prt_ofstream` constructor initialization of `m_bounds`: the three
min components to `numeric_limits<float>::max()` and the three max
components to `numeric_limits<float>::min()`. -/
def init_bounds : bounds_state :=
  ⟨float_limit_max, float_limit_max, float_limit_max,
   float_limit_min, float_limit_min, float_limit_min⟩

/-- The per-record bounding-box update of `prt_ofstream::write_impl`, run
when the layout holds a float32 arity-3 `Position` channel
(`m_posChannelOffset >= 0`), in the order of the source comparisons. -/
def update_bounds (b : bounds_state) (p : ℚ × ℚ × ℚ) : bounds_state :=
  let b1 := if p.1 < b.minx then { b with minx := p.1 } else b
  let b2 := if p.1 > b1.maxx then { b1 with maxx := p.1 } else b1
  let b3 := if p.2.1 < b2.miny then { b2 with miny := p.2.1 } else b2
  let b4 := if p.2.1 > b3.maxy then { b3 with maxy := p.2.1 } else b3
  let b5 := if p.2.2 < b4.minz then { b4 with minz := p.2.2 } else b4
  if p.2.2 > b5.maxz then { b5 with maxz := p.2.2 } else b5

/-- The box stored into the `BoundBox` metadata by `close()` after writing
the given sequence of Position values. -/
def track_bounds (ps : List (ℚ × ℚ × ℚ)) : bounds_state :=
  ps.foldl update_bounds init_bounds

/-- The invariant of claim C9 on a layout: every channel fits inside the
record, whose size is the sum of the channel widths. -/
def layout_inv (l : prt_layout) : Prop :=
  (∀ p ∈ l.channelMap, p.2.offset + data_types.sizes p.2.type * p.2.arity ≤ l.totalSize) ∧
  l.totalSize = (l.channelMap.map (fun p => data_types.sizes p.2.type * p.2.arity)).sum

/-- The stream state reached from a fresh `prt_ofstream` by
`bind("Position", float32 data, 3)`: used to instantiate the universally
quantified theorems at a concrete input. -/
def posBoundStream : prt_ofstream :=
  ⟨⟨[("Position", ⟨0, 3, .type_float32, .point⟩)], ["Position"], 12⟩,
   [⟨3, 0, .type_float32, .type_float32⟩], false, [], 0⟩

/-! ### Definitions following the wording of the specification

These definitions are written from the words of the spec (not from the
source); they exist only to be compared with the definitions above. -/

/-- A type tag that is an integer and counted signed: the signed integer tags. -/
def is_signed_integer (t : data_types.enum_t) : Bool :=
  detail.is_integral t && detail.is_signed t

/-- The compatibility relation exactly as the claim states the §4.2 rules:
float-to-float always; integer-to-integer only with same signedness and
`size(dest) >= size(src)`, never signed-to-unsigned, unsigned-to-signed only
with strictly greater size; nothing mixing integer and float. -/
def claim_is_compatible (dest src : data_types.enum_t) : Bool :=
  if detail.is_float src then detail.is_float dest
  else if detail.is_float dest then false
  else if is_signed_integer src then
    is_signed_integer dest && decide (data_types.sizes src ≤ data_types.sizes dest)
  else if is_signed_integer dest then decide (data_types.sizes src < data_types.sizes dest)
  else decide (data_types.sizes src ≤ data_types.sizes dest)

/-- The amended compatibility rules: identical to the claim except that the
destinations accepted from an integer source are the signed integers
together with every float type, because the implementation counts the float
tags as signed. -/
def amended_is_compatible (dest src : data_types.enum_t) : Bool :=
  if detail.is_float src then detail.is_float dest
  else if is_signed_integer src then
    (is_signed_integer dest || detail.is_float dest) &&
      decide (data_types.sizes src ≤ data_types.sizes dest)
  else if is_signed_integer dest || detail.is_float dest then
    decide (data_types.sizes src < data_types.sizes dest)
  else decide (data_types.sizes src ≤ data_types.sizes dest)

/-- Name validity as the claim states it: the regular expression
`[A-Za-z_][A-Za-z0-9_]*` and at most 31 bytes. -/
def claim_valid_name (name : String) : Bool :=
  (match name.data with
   | [] => false
   | c :: rest =>
     (detail.isalphaC c || decide (c = '_')) &&
       rest.all (fun d => detail.isalnumC d || decide (d = '_')))
  && decide (name.data.length ≤ 31)

/-- Transform compatibility exactly as the claim enumerates it: point,
vector, normal with float type and arity 3; orientation, rotation with float
type and arity 4; scalar with arity 1. -/
def claim_xform_compatible (x : channel_transformation.option)
    (t : data_types.enum_t) (a : Nat) : Bool :=
  match x with
  | .point | .vector | .normal => detail.is_float t && decide (a = 3)
  | .orientation | .rotation => detail.is_float t && decide (a = 4)
  | .scalar => decide (a = 1)
  | _ => true

/-! ### Byte-level header model

The writer side follows `prt_ofstream::write_header` / `write_meta_chunk` /
`write_stop_chunk` / `close` (prt_ofstream.hpp); the reader side follows the
`prt_ifstream::read_header` / `read_meta_chunk` cited by the claims
(conversion.hpp).  Bytes are naturals below 256; multi-byte integers are
little-endian as on disk. -/

/-- Little-endian bytes of a 32-bit value. -/
def le32 (n : Nat) : List Nat :=
  [n % 256, n / 256 % 256, n / 65536 % 256, n / 16777216 % 256]

/-- Little-endian bytes of a 32-bit two's-complement integer. -/
def le32i (n : Int) : List Nat := le32 (n % 4294967296).toNat

/-- Little-endian bytes of a 64-bit two's-complement integer. -/
def le64i (n : Int) : List Nat :=
  [(n % 18446744073709551616).toNat % 256,
   (n % 18446744073709551616).toNat / 256 % 256,
   (n % 18446744073709551616).toNat / 65536 % 256,
   (n % 18446744073709551616).toNat / 16777216 % 256,
   (n % 18446744073709551616).toNat / 4294967296 % 256,
   (n % 18446744073709551616).toNat / 1099511627776 % 256,
   (n % 18446744073709551616).toNat / 281474976710656 % 256,
   (n % 18446744073709551616).toNat / 72057594037927936 % 256]

/-- Decode four little-endian bytes as an unsigned 32-bit value. -/
def de32 (bs : List Nat) : Nat :=
  bs.getD 0 0 + 256 * (bs.getD 1 0 + 256 * (bs.getD 2 0 + 256 * bs.getD 3 0))

/-- Decode four little-endian bytes as a signed 32-bit value. -/
def de32i (bs : List Nat) : Int :=
  if de32 bs < 2147483648 then (de32 bs : Int) else (de32 bs : Int) - 4294967296

/-- Decode eight little-endian bytes as an unsigned 64-bit value. -/
def de64 (bs : List Nat) : Nat :=
  bs.getD 0 0 + 256 * (bs.getD 1 0 + 256 * (bs.getD 2 0 + 256 * (bs.getD 3 0 +
    256 * (bs.getD 4 0 + 256 * (bs.getD 5 0 + 256 * (bs.getD 6 0 + 256 * bs.getD 7 0))))))

/-- Decode eight little-endian bytes as a signed 64-bit value. -/
def de64i (bs : List Nat) : Int :=
  if de64 bs < 9223372036854775808 then (de64 bs : Int)
  else (de64 bs : Int) - 18446744073709551616

/-- The 8 magic bytes `{192, P, R, T, CR, LF, 26, LF}` of
`detail::prt_magic_number`. -/
def prt_magic_bytes : List Nat := [192, 80, 82, 84, 13, 10, 26, 10]

/-- `strncpy(fmtIdentStr, prt_signature_string(), 32)`: the 26 ASCII bytes
of the signature padded with zeros to 32 bytes. -/
def prt_signature_bytes : List Nat :=
  ("Extensible Particle Format".data.map Char.toNat) ++ List.replicate 6 0

/-- `detail::prt_meta_chunk`: the int32 obtained by reinterpreting the four
characters of `Meta`. -/
def prt_meta_chunk : Nat := de32 [77, 101, 116, 97]

/-- `detail::prt_stop_chunk`: the int32 obtained by reinterpreting the four
characters of `Stop`. -/
def prt_stop_chunk : Nat := de32 [83, 116, 111, 112]

/-- One metadata value as carried in a chunk: the owning channel name
(empty for file scope), the value name, the type tag (-1 for string,
otherwise a `data_types` tag) and the payload bytes. -/
structure meta_entry where
  channelName : String
  valueName : String
  valueType : Int
  valueBytes : List Nat
deriving DecidableEq

/-- The bytes of an ASCII string. -/
def strBytes (s : String) : List Nat := s.data.map Char.toNat

/-- A string rebuilt from bytes. -/
def strOfBytes (bs : List Nat) : String := ⟨bs.map Char.ofNat⟩

/-- `prt_ofstream::measure_meta_chunk`: the two NUL-terminated names, the
4-byte type tag, and the value bytes. -/
def measure_meta_chunk (e : meta_entry) : Nat :=
  e.channelName.length + 1 + (e.valueName.length + 1) + 4 + e.valueBytes.length

/-- The body of a meta chunk after its 8-byte tag and length:
`channelName NUL valueName NUL type payload`. -/
def meta_chunk_body (e : meta_entry) : List Nat :=
  strBytes e.channelName ++ ([0] ++ (strBytes e.valueName ++ ([0] ++
    (le32i e.valueType ++ e.valueBytes))))

/-- `prt_ofstream::write_meta_chunk`: the chunk tag, the chunk length and
the body. -/
def meta_chunk_bytes (e : meta_entry) : List Nat :=
  le32 prt_meta_chunk ++ (le32 (measure_meta_chunk e) ++ meta_chunk_body e)

/-- `prt_ofstream::write_stop_chunk`: the stop tag with length 0. -/
def stop_chunk_bytes : List Nat := le32 prt_stop_chunk ++ le32 0

/-- The metadata section the writer emits: every chunk in map-iteration
order, terminated by the stop chunk. -/
def chunks_bytes : List meta_entry → List Nat
  | [] => stop_chunk_bytes
  | e :: es => meta_chunk_bytes e ++ chunks_bytes es

/-- `chunksSizeTotal` in `write_header`: 8 bytes of tag and length per chunk
plus its measured size, plus the 8-byte stop chunk. -/
def chunks_size_total (entries : List meta_entry) : Nat :=
  (entries.map (fun e => 8 + measure_meta_chunk e)).sum + 8

/-- The fixed 56 bytes of the header: magic number, header length,
signature, version 2, particle-count placeholder -1 (prt_header_v1 layout,
with `header.version = 2` as `write_header` sets it). -/
def header_fixed_bytes (headerLength : Nat) : List Nat :=
  prt_magic_bytes ++ le32 headerLength ++ prt_signature_bytes ++ le32 2 ++ le64i (-1)

/-- The position `write_header` remembers for the BoundBox value while
emitting the chunks from position `pos`: the `tellp()` taken after the chunk
tag, the length, the two NUL-terminated names and the type tag of the
file-scope entry named `BoundBox`. -/
def boundbox_value_pos : Nat → List meta_entry → Option Nat
  | _, [] => none
  | pos, e :: es =>
    if e.channelName = "" ∧ e.valueName = "BoundBox" then
      some (pos + 8 + (e.channelName.length + 1) + (e.valueName.length + 1) + 4)
    else boundbox_value_pos (pos + 8 + measure_meta_chunk e) es

/-- One 44-byte channel record of the channel map: the name zero-padded to
32 bytes (the struct is memset to zero before `strncpy`), then type, arity
and offset as int32. -/
def channel_record_bytes (name : String) (ch : detail.prt_channel) : List Nat :=
  (strBytes name ++ List.replicate (32 - name.length) 0) ++
    (le32 ch.type.val ++ (le32 ch.arity ++ le32 ch.offset))

/-- The channel-map loop of `write_header`: iterates `m_channels` by index,
throws on a name `is_valid_channel_name` rejects, and emits one record per
channel. -/
def channel_records (l : prt_layout) : List String → Except String (List Nat)
  | [] => .ok []
  | n :: ns =>
    if !detail.is_valid_channel_name n then .error ("Invalid channel name " ++ n)
    else match l.channelMap.lookup n with
      | none => .error ("There is no channel named " ++ n)
      | some ch =>
        match channel_records l ns with
        | .error e => .error e
        | .ok rest => .ok (channel_record_bytes n ch ++ rest)

/-- `write_meta_chunk` validates every value name with
`is_valid_channel_name` and throws otherwise. -/
def entries_names_valid (entries : List meta_entry) : Bool :=
  entries.all (fun e => detail.is_valid_channel_name e.valueName)

/-- The whole uncompressed output of `write_header`: the fixed 56 bytes
(with `headerLength = 56 + chunksSizeTotal`), the chunk sequence with its
stop chunk, the reserved int 4, the channel count, the 44-byte per-channel
length, and the channel records.  Returns the bytes, the remembered
particle-count position (offset of `particleCount` inside `prt_header_v1`,
which is 48) and the remembered BoundBox value position. -/
def write_header_bytes (entries : List meta_entry) (l : prt_layout) :
    Except String (List Nat × Nat × Option Nat) :=
  if !entries_names_valid entries then .error "Invalid metadata name"
  else match channel_records l l.channels with
    | .error e => .error e
    | .ok table =>
      .ok (header_fixed_bytes (56 + chunks_size_total entries) ++
             (chunks_bytes entries ++
               (le32 4 ++ (le32 l.num_channels ++ (le32 44 ++ table)))),
           48, boundbox_value_pos 56 entries)

/-- The 24 payload bytes of the forced `BoundBox` entry: the IEEE-754
images of the six initial float bounds.  Their numeric content never
matters — `close` overwrites these bytes — only the length 24 does. -/
def boundbox_placeholder_bytes : List Nat := List.replicate 24 0

/-- `m_fileMetadata["BoundBox"].set_array(m_bounds)` at the start of
`write_header`: the file-scope BoundBox entry is created (type float32,
six values, 24 bytes) or overwritten. -/
def set_boundbox : List meta_entry → List meta_entry
  | [] => [⟨"", "BoundBox", 4, boundbox_placeholder_bytes⟩]
  | e :: es =>
    if e.channelName = "" ∧ e.valueName = "BoundBox" then
      ⟨"", "BoundBox", 4, boundbox_placeholder_bytes⟩ :: es
    else e :: set_boundbox es

/-- Byte-level state of the file behind a `prt_ofstream`. -/
structure ofile_state where
  fileBytes : List Nat
  countLocation : Nat
  boundBoxLocation : Nat
  particleCount : Nat
deriving DecidableEq

/-- `prt_ofstream::open` at byte level: force the BoundBox metadata, write
the header, remember the two patch positions (both 0 from construction when
not set). -/
def ofile_open (entries : List meta_entry) (l : prt_layout) :
    Except String ofile_state :=
  match write_header_bytes (set_boundbox entries) l with
  | .error e => .error e
  | .ok (bytes, cl, bb) => .ok ⟨bytes, cl, bb.getD 0, 0⟩

/-- `write_impl` at byte level: the compressed bytes the deflate filter
emits for this record (opaque here) are appended and `m_particleCount` is
incremented. -/
def ofile_write (st : ofile_state) (chunk : List Nat) : ofile_state :=
  { st with fileBytes := st.fileBytes ++ chunk,
            particleCount := st.particleCount + 1 }

/-- `close` at byte level: flush the final compressed bytes, then, for each
remembered positive location, seek back and overwrite the 8-byte particle
count and the 24 BoundBox bytes; reset the count. -/
def ofile_close (st : ofile_state) (finalChunk : List Nat)
    (boundsBytes : List Nat) : ofile_state :=
  { fileBytes :=
      (fun f2 =>
        if 0 < st.boundBoxLocation then spliceAt f2 st.boundBoxLocation boundsBytes else f2)
      (if 0 < st.countLocation then
        spliceAt (st.fileBytes ++ finalChunk) st.countLocation (le64i st.particleCount)
      else st.fileBytes ++ finalChunk),
    countLocation := 0,
    boundBoxLocation := st.boundBoxLocation,
    particleCount := 0 }

/-- `std::istream::getline(buf, 32, 0)`: the bytes before the NUL, and the
stream after it. -/
def getline0 (input : List Nat) : List Nat × List Nat :=
  ((input.takeWhile (fun b => decide (b ≠ 0))),
   input.drop ((input.takeWhile (fun b => decide (b ≠ 0))).length + 1))

/-- `prt_ifstream::read_meta_chunk` (conversion.hpp): read the channel name
and the value name up to their NULs, the 4-byte type tag, then the
remaining `chunkLength` bytes as the payload.  A type tag outside
`[type_string, type_last)` throws; an invalid channel or value name is
logged and the entry dropped.  Returns the optional entry and the bytes
consumed. -/
def read_meta_chunk (chunkLength : Nat) (input : List Nat) :
    Except String (Option meta_entry × Nat) :=
  if de32i ((getline0 (getline0 input).2).2.take 4) < -1 ∨
      11 ≤ de32i ((getline0 (getline0 input).2).2.take 4) then
    .error "invalid metadata type"
  else
    .ok (
      (if decide ((getline0 input).1 ≠ []) &&
          !detail.is_valid_channel_name (strOfBytes (getline0 input).1) then none
       else if !detail.is_valid_channel_name (strOfBytes (getline0 (getline0 input).2).1) then none
       else some ⟨strOfBytes (getline0 input).1,
                  strOfBytes (getline0 (getline0 input).2).1,
                  de32i ((getline0 (getline0 input).2).2.take 4),
                  ((getline0 (getline0 input).2).2.drop 4).take
                    (chunkLength - ((getline0 input).1.length + 1 +
                      ((getline0 (getline0 input).2).1.length + 1) + 4))⟩),
      (getline0 input).1.length + 1 + ((getline0 (getline0 input).2).1.length + 1) + 4 +
        (chunkLength - ((getline0 input).1.length + 1 +
          ((getline0 (getline0 input).2).1.length + 1) + 4)))

/-- The chunk loop of the cited `read_header`: read a 4-byte tag and a
4-byte length; `Stop` terminates, `Meta` parses one metadata chunk, any
other tag is skipped over its declared length.  `fuel` only bounds the
iteration count: every iteration consumes at least 8 bytes, so the
`input.length + 1` supplied by `read_chunks` can never run out. -/
def read_chunks_fuel : Nat → List Nat → Except String (List meta_entry × List Nat)
  | 0, _ => .error "out of fuel"
  | fuel + 1, input =>
    if input.length < 8 then .error "truncated chunk header"
    else if de32 (input.take 4) = prt_stop_chunk then .ok ([], input.drop 8)
    else if de32 (input.take 4) = prt_meta_chunk then
      match read_meta_chunk (de32 ((input.drop 4).take 4)) (input.drop 8) with
      | .error e => .error e
      | .ok (opt, k) =>
        match read_chunks_fuel fuel ((input.drop 8).drop k) with
        | .error e => .error e
        | .ok (entries, rest) =>
          .ok ((match opt with | some e2 => [e2] | none => []) ++ entries, rest)
    else read_chunks_fuel fuel ((input.drop 8).drop (de32 ((input.drop 4).take 4)))

/-- The chunk loop with enough fuel for any input. -/
def read_chunks (input : List Nat) : Except String (List meta_entry × List Nat) :=
  read_chunks_fuel (input.length + 1) input

/-- The metadata phase of the cited `prt_ifstream::read_header`
(conversion.hpp): for version <= 1 the reader skips
`headerLength - sizeof(prt_header_v1)` bytes and parses no metadata; for
any later version it parses the chunk sequence until the stop chunk. -/
def read_metadata_section (version : Int) (headerLength : Nat)
    (input : List Nat) : Except String (List meta_entry × List Nat) :=
  if version ≤ 1 then .ok ([], input.drop (headerLength - 56))
  else read_chunks input

/-- Well-formedness of a metadata entry for the writer-to-reader statement:
the type tag lies in the on-disk range, the names pass the validators the
two sides apply (the channel name may be empty, marking file scope), and
the name bytes are NUL-free single bytes. -/
def entry_wf (e : meta_entry) : Bool :=
  decide (-1 ≤ e.valueType) && decide (e.valueType < 11) &&
  (decide (e.channelName = "") || detail.is_valid_channel_name e.channelName) &&
  detail.is_valid_channel_name e.valueName &&
  e.channelName.data.all (fun c => decide (c.toNat ≠ 0) && decide (c.toNat < 256)) &&
  e.valueName.data.all (fun c => decide (c.toNat ≠ 0) && decide (c.toNat < 256)) &&
  decide (measure_meta_chunk e < 2147483648)

/-- A concrete file-scope string metadata entry (value `A` with its NUL). -/
def demo_entry : meta_entry := ⟨"", "Author", -1, [65, 0]⟩

/-- The byte-level state `open()` produces for a stream with no user
metadata and an empty layout: the header length is
`56 + (8 + 38) + 8 = 110` (the forced BoundBox chunk measures
`1 + 9 + 4 + 24 = 38`), and the BoundBox value sits at byte
`56 + 8 + 1 + 9 + 4 = 78`. -/
def c4_state : ofile_state :=
  ⟨header_fixed_bytes 110 ++ (chunks_bytes (set_boundbox []) ++
     (le32 4 ++ (le32 0 ++ (le32 44 ++ [])))), 48, 78, 0⟩

/-! ## Theorems -/

/-- C2 counterexample: the claim says no pairing mixing integer and float is
accepted, but `is_compatible(float32, int8)` returns true, because
`is_signed` counts the float tags as signed (their enum values are below
`type_uint16`). -/
theorem is_compatible_int8_to_float32_cex :
    detail.is_compatible .type_float32 .type_int8 = true ∧
    claim_is_compatible .type_float32 .type_int8 = false := by
  decide

/-- C2 amended: `is_compatible(dest, src)` follows the §4.2 rules with the
destination class of an integer source widened by the float types: float
source to any float destination; signed-integer source to a signed-integer
or float destination of at least its size; unsigned source to an unsigned
destination of at least its size, or to a signed-integer or float
destination of strictly greater size.  The relation is reflexive, and a
float source is accepted exactly by float destinations. -/
theorem is_compatible_characterization :
    (∀ dest src, detail.is_compatible dest src = amended_is_compatible dest src) ∧
    (∀ t, detail.is_compatible t t = true) ∧
    (∀ dest src, detail.is_float src = true →
      detail.is_compatible dest src = detail.is_float dest) := by
  refine ⟨by decide, by decide, ?_⟩
  decide

/-- C6: the code contradicts the documented name rules in both validators.
`detail::is_valid_name` (used by `add_channel` and `add_metadata`) accepts a
32-byte name because it performs no length check, although its callers
document a 31-byte limit; `detail::is_valid_channel_name` rejects a name
with an underscore after the first position and accepts one containing `!`,
because its loop condition compares the character to the underscore with
`==` where the regular expression requires `!=`.  Boundary cases the claim
lists: a lone underscore and a 31-byte name are accepted. -/
theorem name_validation_divergence :
    (detail.is_valid_name "abcdefghijklmnopqrstuvwxyz012345" = true ∧
      claim_valid_name "abcdefghijklmnopqrstuvwxyz012345" = false) ∧
    (detail.is_valid_channel_name "a_b" = false ∧ claim_valid_name "a_b" = true) ∧
    (detail.is_valid_channel_name "a!b" = true ∧ claim_valid_name "a!b" = false) ∧
    (detail.is_valid_name "_" = true ∧
      detail.is_valid_channel_name "abcdefghijklmnopqrstuvwxyz01234" = true ∧
      claim_valid_name "abcdefghijklmnopqrstuvwxyz01234" = true) := by
  decide

/-- C8 counterexample: the claim states the scalar transform is compatible
precisely with arity 1, but the implementation additionally requires a float
type, so an `int32` channel of arity 1 tagged scalar is rejected. -/
theorem scalar_transform_int_cex :
    channel_transformation.is_compatible .scalar .type_int32 1 = false ∧
    claim_xform_compatible .scalar .type_int32 1 = true := by
  decide

/-- C8 amended: `add_channel` defaults the transform to point exactly for
the name `Position`; point, vector and normal are compatible precisely with
float type and arity 3, orientation and rotation precisely with float type
and arity 4, and scalar precisely with float type and arity 1 (unspecified
and invalid are compatible with everything); an incompatible explicit
combination makes `add_channel` fail with an error. -/
theorem transform_compat_amended :
    (∀ t a, channel_transformation.is_compatible .point t a
        = (detail.is_float t && decide (a = 3))) ∧
    (∀ t a, channel_transformation.is_compatible .vector t a
        = (detail.is_float t && decide (a = 3))) ∧
    (∀ t a, channel_transformation.is_compatible .normal t a
        = (detail.is_float t && decide (a = 3))) ∧
    (∀ t a, channel_transformation.is_compatible .orientation t a
        = (detail.is_float t && decide (a = 4))) ∧
    (∀ t a, channel_transformation.is_compatible .rotation t a
        = (detail.is_float t && decide (a = 4))) ∧
    (∀ t a, channel_transformation.is_compatible .scalar t a
        = (detail.is_float t && decide (a = 1))) ∧
    (∀ t a, channel_transformation.is_compatible .unspecified t a = true) ∧
    (∀ t a, channel_transformation.is_compatible .invalid t a = true) ∧
    (∀ l t a off, prt_layout.add_channel l "Position" t a off
        = prt_layout.add_channel l "Position" t a off .point) ∧
    (∀ l name t a off x, x ≠ channel_transformation.option.unspecified →
      channel_transformation.is_compatible x t a = false →
      exOk (prt_layout.add_channel l name t a off x) = false) := by
  refine ⟨fun t a => rfl, fun t a => rfl, fun t a => rfl, fun t a => rfl,
    fun t a => rfl, fun t a => rfl, fun t a => rfl, fun t a => rfl, ?_, ?_⟩
  · intro l t a off
    unfold prt_layout.add_channel
    simp [default_xform]
  · intro l name t a off x hx hcompat
    have hdx : default_xform name x = x := by
      unfold default_xform
      rw [if_neg hx]
    unfold prt_layout.add_channel
    rw [hdx, hcompat]
    by_cases hv : detail.is_valid_name name
    · by_cases hd : (l.channelMap.lookup name).isSome
      · simp [hv, hd, exOk]
      · simp [hv, hd, exOk]
    · simp [hv, exOk]

/-- C8 witness: the amended theorem applied at a concrete incompatible
combination: a point transform on an int32 channel of arity 3 makes
`add_channel` fail. -/
theorem transform_compat_amended_witness :
    exOk (prt_layout.init.add_channel "Color" .type_int32 3 0 .point) = false :=
  transform_compat_amended.2.2.2.2.2.2.2.2.2 prt_layout.init "Color" .type_int32 3 0 .point
    (by decide) (by decide)

/-- C9 counterexample: `add_channel` accepts any offset without comparing it
to the running record size, which is exactly what `prt_ifstream::read_header`
does when it rebuilds a layout from a file channel table.  A table with the
single channel `Density`, float32, arity 1, offset 100 produces a layout with
record size 4 and a channel ending at byte 104. -/
theorem layout_offset_invariant_cex :
    prt_layout.init.add_channel "Density" .type_float32 1 100 =
      .ok (prt_layout.mk [("Density", ⟨100, 1, .type_float32, .unspecified⟩)] ["Density"] 4) ∧
    ¬(100 + data_types.sizes .type_float32 * 1 ≤
      (prt_layout.mk [("Density", ⟨100, 1, .type_float32, .unspecified⟩)] ["Density"] 4).size) := by
  decide

/-- C10: `clear()` empties the channel map and resets the record size, so
`num_channels`, `size` and `has_channel` report an empty layout, but the
source never clears the `m_channels` vector consulted by
`get_channel_name`, so the name added before the clear is still listed, and
after adding a fresh channel `B` the name at index 0 is still `A`. -/
theorem clear_keeps_channel_names :
    ∃ l : prt_layout, prt_layout.init.add_channel "A" .type_float32 1 0 = .ok l ∧
      (l.clear.num_channels = 0 ∧ l.clear.size = 0 ∧ l.clear.has_channel "A" = false) ∧
      l.clear.channels = ["A"] ∧ l.clear.get_channel_name 0 = "A" ∧
      (∃ l2 : prt_layout, l.clear.add_channel "B" .type_float32 1 0 = .ok l2 ∧
        l2.get_channel_name 0 = "A" ∧ l2.num_channels = 1 ∧ l2.has_channel "B" = true) := by
  refine ⟨prt_layout.mk [("A", ⟨0, 1, .type_float32, .unspecified⟩)] ["A"] 4, ?_⟩
  refine ⟨by decide, ⟨by decide, by decide, by decide⟩, by decide, by decide, ?_⟩
  refine ⟨prt_layout.mk [("B", ⟨0, 1, .type_float32, .unspecified⟩)] ["A", "B"] 4, ?_, ?_, ?_, ?_⟩ <;> decide

/-- C3: the claim requires the finalized `BoundBox` to equal the
componentwise min and max of the written Position values, including for
records whose coordinates are all negative, and a NaN-filled box with zero
records.  The code initializes the max components of `m_bounds` to
`numeric_limits<float>::min()` — the smallest positive float, `2^-126` —
instead of the most negative float, so after writing the single record
`(-1, -1, -1)` the stored max component is `2^-126` (a positive number)
rather than `-1`, while the min side is correct; and with zero records the
stored box is the finite pair (FLT_MAX, FLT_MIN) rather than NaN-filled. -/
theorem boundbox_negative_position_bug :
    (track_bounds [(-1, -1, -1)]).maxx = float_limit_min ∧
    float_limit_min ≠ (-1 : ℚ) ∧
    (0 : ℚ) < float_limit_min ∧
    (track_bounds [(-1, -1, -1)]).minx = -1 ∧
    track_bounds [] = init_bounds ∧
    init_bounds.maxx = float_limit_min ∧ init_bounds.minx = float_limit_max := by
  refine ⟨by decide, by decide, by decide, by decide, rfl, rfl, rfl⟩

/-- The numeral `float_limit_max` is `2^128 - 2^104`. -/
theorem float_limit_max_value : float_limit_max = 2 ^ 128 - 2 ^ 104 := by
  norm_num [float_limit_max]

/-- The rational `float_limit_min` is `2^-126`. -/
theorem float_limit_min_value : float_limit_min = 1 / 2 ^ 126 := by
  norm_num [float_limit_min]

/-! ### Helper lemmas about the layout and the output stream -/

theorem lookup_append_some {β : Type} {l₁ l₂ : List (String × β)} {k : String} {v : β}
    (h : l₁.lookup k = some v) : (l₁ ++ l₂).lookup k = some v := by
  induction l₁ with
  | nil => simp [List.lookup] at h
  | cons p rest ih =>
    rw [List.cons_append]
    rw [List.lookup] at h ⊢
    cases hk : (k == p.1) with
    | true => rw [hk] at h; exact h
    | false => rw [hk] at h; exact ih h

theorem lookup_append_none {β : Type} {l₁ l₂ : List (String × β)} {k : String}
    (h : l₁.lookup k = none) : (l₁ ++ l₂).lookup k = l₂.lookup k := by
  induction l₁ with
  | nil => simp
  | cons p rest ih =>
    rw [List.cons_append]
    rw [List.lookup] at h ⊢
    cases hk : (k == p.1) with
    | true => rw [hk] at h; cases h
    | false => rw [hk] at h; exact ih h

/-- Successful `add_channel` appends one channel carrying the given offset,
arity and type, records the name, grows the total by the channel width, and
implies the name was not present before. -/
theorem add_channel_ok_shape {l : prt_layout} {name : String}
    {type : data_types.enum_t} {arity offset : Nat}
    {x : channel_transformation.option} {l2 : prt_layout}
    (h : l.add_channel name type arity offset x = .ok l2) :
    ∃ x2, l2 = prt_layout.mk (l.channelMap ++ [(name, ⟨offset, arity, type, x2⟩)])
        (l.channels ++ [name]) (l.totalSize + data_types.sizes type * arity) ∧
      l.channelMap.lookup name = none := by
  unfold prt_layout.add_channel at h
  split at h
  · cases h
  · split at h
    · cases h
    · rename_i hv hdup
      split at h
      · cases h
      · refine ⟨default_xform name x, ?_, ?_⟩
        · injection h with h2
          exact h2.symm
        · rcases ho : l.channelMap.lookup name with _ | v
          · rfl
          · rw [ho] at hdup; simp at hdup

/-- Successful `bind` on an output stream: no state is inspected, the new
channel is placed at the current end of the record, and exactly one channel
and one binding are appended. -/
theorem bind_ok_shape {s : prt_ofstream} {name : String} {T : data_types.enum_t}
    {arity : Nat} {dt : Option data_types.enum_t} {s2 : prt_ofstream}
    (h : s.bind name T arity dt = .ok s2) :
    ∃ x2, s2 = { s with
        layout := prt_layout.mk
          (s.layout.channelMap ++ [(name, ⟨s.layout.totalSize, arity, dt.getD T, x2⟩)])
          (s.layout.channels ++ [name])
          (s.layout.totalSize + data_types.sizes (dt.getD T) * arity),
        boundChannels := s.boundChannels ++ [⟨arity, s.layout.totalSize, T, dt.getD T⟩] } ∧
      s.layout.channelMap.lookup name = none := by
  unfold prt_ofstream.bind at h
  split at h
  · cases h
  · split at h
    · cases h
    · rename_i hdup hcompat
      rcases hadd : s.layout.add_channel name (dt.getD T) arity s.layout.size with e | l2
      · rw [hadd] at h; cases h
      · rw [hadd] at h
        obtain ⟨x2, hl2, hnone⟩ := add_channel_ok_shape hadd
        refine ⟨x2, ?_, hnone⟩
        injection h with h2
        rw [← h2, hl2]
        rfl

/-- C7 counterexample: `bind` contains no stream-state check, so a `bind`
call made after `open()` succeeds instead of throwing: after binding
`Position` and opening the stream, binding `Color` still returns success. -/
theorem bind_after_open_succeeds_cex :
    ∃ s1 : prt_ofstream,
      prt_ofstream.init.bind "Position" .type_float32 3 = .ok s1 ∧
      s1.openStream.isOpen = true ∧
      exOk (s1.openStream.bind "Color" .type_float32 3) = true := by
  refine ⟨⟨⟨[("Position", ⟨0, 3, .type_float32, .point⟩)], ["Position"], 12⟩,
    [⟨3, 0, .type_float32, .type_float32⟩], false, [], 0⟩, by decide, by decide, by decide⟩

/-- C7 amended: `bind` on an output stream performs no state check: its
outcome is the same whether the stream is unopened, open or closed, and a
successful `bind` appends exactly one channel to the layout and records
exactly one binding, leaving the open flag and the committed records
unchanged. -/
theorem bind_no_state_check :
    (∀ (s : prt_ofstream) (b : Bool) (name : String) (T : data_types.enum_t)
        (arity : Nat) (dt : Option data_types.enum_t),
      prt_ofstream.bind { s with isOpen := b } name T arity dt
        = Except.map (fun r => { r with isOpen := b }) (s.bind name T arity dt)) ∧
    (∀ (s s2 : prt_ofstream) (name : String) (T : data_types.enum_t)
        (arity : Nat) (dt : Option data_types.enum_t),
      s.bind name T arity dt = .ok s2 →
      s2.layout.num_channels = s.layout.num_channels + 1 ∧
      s2.boundChannels.length = s.boundChannels.length + 1 ∧
      s2.isOpen = s.isOpen ∧ s2.fileRecords = s.fileRecords) := by
  constructor
  · intro s b name T arity dt
    unfold prt_ofstream.bind
    by_cases h1 : ({ s with isOpen := b } : prt_ofstream).layout.has_channel name
    · have h1s : s.layout.has_channel name := h1
      simp [h1, h1s, Except.map]
    · have h1s : ¬ s.layout.has_channel name := h1
      by_cases h2 : detail.is_compatible (dt.getD T) T
      · rcases hadd : s.layout.add_channel name (dt.getD T) arity s.layout.size with e | l2
        · simp [h1, h1s, h2, hadd, Except.map, prt_ofstream.bind]
        · simp [h1, h1s, h2, hadd, Except.map, prt_ofstream.bind]
      · simp [h1, h1s, h2, Except.map]
  · intro s s2 name T arity dt h
    obtain ⟨x2, hs2, _⟩ := bind_ok_shape h
    subst hs2
    refine ⟨?_, ?_, rfl, rfl⟩
    · simp [prt_layout.num_channels]
    · simp

/-- C7 witness: the amended theorem applied to a fresh stream binding
`Position` as three float32 elements. -/
theorem bind_no_state_check_witness :
    posBoundStream.layout.num_channels = prt_ofstream.init.layout.num_channels + 1 ∧
    posBoundStream.boundChannels.length = prt_ofstream.init.boundChannels.length + 1 ∧
    posBoundStream.isOpen = prt_ofstream.init.isOpen ∧
    posBoundStream.fileRecords = prt_ofstream.init.fileRecords :=
  bind_no_state_check.2 prt_ofstream.init posBoundStream "Position" .type_float32 3 none
    (by decide)

/-- C9 amended: every layout built by successive output-stream `bind` calls
satisfies the invariant: each channel ends within the record, and the record
size is the sum of `size(type) * arity` over the channels.  (A layout
reconstructed from a file channel table satisfies the invariant only when
the offsets stored in the file do, because `add_channel` stores the supplied
offset without comparing it to the record size.) -/
theorem bind_layout_invariant :
    ∀ (specs : List chan_spec) (s : prt_ofstream),
      obindAll prt_ofstream.init specs = .ok s →
      (∀ p ∈ s.layout.channelMap,
        p.2.offset + data_types.sizes p.2.type * p.2.arity ≤ s.layout.size) ∧
      s.layout.size = (s.layout.channelMap.map
        (fun p => data_types.sizes p.2.type * p.2.arity)).sum := by
  have main : ∀ (specs : List chan_spec) (s0 s : prt_ofstream),
      layout_inv s0.layout → obindAll s0 specs = .ok s → layout_inv s.layout := by
    intro specs
    induction specs with
    | nil =>
      intro s0 s h0 h
      unfold obindAll at h
      injection h with h2
      rw [← h2]; exact h0
    | cons sp rest ih =>
      intro s0 s h0 h
      unfold obindAll at h
      rcases hb : s0.bind sp.1 sp.2.1 sp.2.2 with e | s1
      · rw [hb] at h; cases h
      · rw [hb] at h
        refine ih s1 s ?_ h
        obtain ⟨x2, hs1, _⟩ := bind_ok_shape hb
        subst hs1
        constructor
        · intro p hp
          rcases List.mem_append.1 hp with hp | hp
          · exact le_trans (h0.1 p hp) (Nat.le_add_right _ _)
          · simp at hp
            rw [hp]
            simp
        · simp [h0.2]
  intro specs s h
  have := main specs prt_ofstream.init s ⟨fun p hp => absurd hp (List.not_mem_nil p), rfl⟩ h
  exact ⟨this.1, this.2⟩

/-- C9 witness: the invariant, evaluated on the layout built by binding
`Position` as three float32 elements on a fresh stream. -/
theorem bind_layout_invariant_witness :
    (∀ p ∈ posBoundStream.layout.channelMap,
      p.2.offset + data_types.sizes p.2.type * p.2.arity ≤ posBoundStream.layout.size) ∧
    posBoundStream.layout.size = (posBoundStream.layout.channelMap.map
      (fun p => data_types.sizes p.2.type * p.2.arity)).sum :=
  bind_layout_invariant [("Position", .type_float32, 3)] posBoundStream (by decide)

/-! ### Round-trip infrastructure: splice and extraction -/

theorem spliceAt_length {buf src : List Nat} {off : Nat}
    (h : off + src.length ≤ buf.length) :
    (spliceAt buf off src).length = buf.length := by
  unfold spliceAt
  simp only [List.length_append, List.length_take, List.length_drop]
  omega

theorem extractBytes_spliceAt_self {buf src : List Nat} {off : Nat}
    (h : off + src.length ≤ buf.length) :
    extractBytes (spliceAt buf off src) off src.length = src := by
  unfold spliceAt extractBytes
  have h1 : (buf.take off).length = off := by
    simp only [List.length_take]
    omega
  rw [List.drop_left' h1, List.take_left' rfl]

theorem extractBytes_spliceAt_of_le {buf src : List Nat} {off p l : Nat}
    (hpl : p + l ≤ off) (hoff : off ≤ buf.length) :
    extractBytes (spliceAt buf off src) p l = extractBytes buf p l := by
  unfold spliceAt extractBytes
  have h1 : (buf.take off).length = off := by
    simp only [List.length_take]
    omega
  rw [List.drop_append_eq_append_drop, List.take_append_eq_append_take]
  have h2 : ((buf.take off).drop p).length = off - p := by
    simp only [List.length_drop, h1]
  rw [h2, h1]
  have h3 : l - (off - p) = 0 := by omega
  have h4 : p - off = 0 := by omega
  rw [h3, h4]
  simp only [List.take_zero, List.drop_zero, List.append_nil]
  rw [List.drop_take]
  rw [List.take_take]
  congr 1
  omega

/-- The step function of `assembleRecord`, shared by the lemmas below. -/
theorem assembleRecord_eq_foldl (size : Nat) (bound : List obound_channel)
    (srcs : List (List Nat)) :
    assembleRecord size bound srcs = (bound.zip srcs).foldl
      (fun buf p => spliceAt buf p.1.dest
        (detail.convert_apply p.1.destType p.1.srcType p.1.arity p.2))
      (List.replicate size 0) := rfl

theorem foldl_splice_extract_frozen :
    ∀ (pairs : List (obound_channel × List Nat)) (buf : List Nat) (p l : Nat),
      (∀ q ∈ pairs, p + l ≤ q.1.dest ∧
        q.1.dest + (detail.convert_apply q.1.destType q.1.srcType q.1.arity q.2).length
          ≤ buf.length) →
      extractBytes (pairs.foldl
        (fun b2 q => spliceAt b2 q.1.dest
          (detail.convert_apply q.1.destType q.1.srcType q.1.arity q.2)) buf) p l
        = extractBytes buf p l := by
  intro pairs
  induction pairs with
  | nil => intro buf p l _; rfl
  | cons q rest ih =>
    intro buf p l h
    have hq := h q (List.mem_cons_self q rest)
    rw [List.foldl_cons]
    have hlen : (spliceAt buf q.1.dest
        (detail.convert_apply q.1.destType q.1.srcType q.1.arity q.2)).length = buf.length :=
      spliceAt_length (by omega)
    rw [ih _ p l ?_]
    · exact extractBytes_spliceAt_of_le hq.1 (by omega)
    · intro r hr
      have hrr := h r (List.mem_cons_of_mem q hr)
      exact ⟨hrr.1, by rw [hlen]; exact hrr.2⟩

theorem seqFrom_dest_bounds :
    ∀ (bs : List obound_channel) (start : Nat), seqFrom start bs →
      ∀ b ∈ bs, start ≤ b.dest ∧ b.dest + obyteLen b ≤ start + (bs.map obyteLen).sum := by
  intro bs
  induction bs with
  | nil => intro start _ b hb; cases hb
  | cons c cs ih =>
    intro start hseq b hb
    rcases List.mem_cons.1 hb with hb | hb
    · subst hb
      refine ⟨le_of_eq hseq.1.symm, ?_⟩
      rw [hseq.1]
      simp only [List.map_cons, List.sum_cons]
      omega
    · have := ih (start + obyteLen c) hseq.2 b hb
      simp only [List.map_cons, List.sum_cons]
      omega

theorem seqFrom_append_one :
    ∀ (bs : List obound_channel) (start : Nat) (b : obound_channel),
      seqFrom start bs → b.dest = start + (bs.map obyteLen).sum →
      seqFrom start (bs ++ [b]) := by
  intro bs
  induction bs with
  | nil =>
    intro start b _ hd
    exact ⟨by simpa using hd, trivial⟩
  | cons c cs ih =>
    intro start b hseq hd
    refine ⟨hseq.1, ih _ b hseq.2 ?_⟩
    rw [hd]
    simp only [List.map_cons, List.sum_cons]
    omega

theorem forall₂_mono {α β : Type} {R S : α → β → Prop}
    (h : ∀ a b, R a b → S a b) :
    ∀ {l₁ : List α} {l₂ : List β}, List.Forall₂ R l₁ l₂ → List.Forall₂ S l₁ l₂ := by
  intro l₁ l₂ hf
  induction hf with
  | nil => exact .nil
  | cons hr _ ih => exact .cons (h _ _ hr) ih

theorem forall₂_append {α β : Type} {R : α → β → Prop} :
    ∀ {l₁ l₃ : List α} {l₂ l₄ : List β}, List.Forall₂ R l₁ l₂ → List.Forall₂ R l₃ l₄ →
      List.Forall₂ R (l₁ ++ l₃) (l₂ ++ l₄) := by
  intro l₁ l₃ l₂ l₄ h1 h2
  induction h1 with
  | nil => exact h2
  | cons hr _ ih => exact .cons hr ih

theorem mem_right_of_forall₂ {α β : Type} {R : α → β → Prop} :
    ∀ {l₁ : List α} {l₂ : List β}, List.Forall₂ R l₁ l₂ →
      ∀ b ∈ l₂, ∃ a ∈ l₁, R a b := by
  intro l₁ l₂ h
  induction h with
  | nil => intro b hb; cases hb
  | cons hr _ ih =>
    intro b hb
    rcases List.mem_cons.1 hb with hb | hb
    · subst hb
      exact ⟨_, List.mem_cons_self _ _, hr⟩
    · obtain ⟨a, ha, har⟩ := ih b hb
      exact ⟨a, List.mem_cons_of_mem _ ha, har⟩

theorem map_eq_of_forall₂ {α β : Type} {f : α → β} :
    ∀ {l₁ : List α} {l₂ : List β}, List.Forall₂ (fun a b => f a = b) l₁ l₂ →
      l₁.map f = l₂ := by
  intro l₁ l₂ h
  induction h with
  | nil => rfl
  | cons hr _ ih => simp [ih, hr]

/-- Extraction recovers every source from the assembled record when the
bound channels tile the buffer, the sources have the channel widths, and
every binding is same-typed (so its converter is the verbatim copy). -/
theorem assemble_extract :
    ∀ (bound : List obound_channel) (srcs : List (List Nat)) (start : Nat) (buf : List Nat),
      seqFrom start bound →
      List.Forall₂ (fun (b : obound_channel) (src : List Nat) =>
        src.length = obyteLen b) bound srcs →
      (∀ b ∈ bound, b.srcType = b.destType) →
      start + (bound.map obyteLen).sum ≤ buf.length →
      List.Forall₂ (fun b src =>
        extractBytes ((bound.zip srcs).foldl
          (fun b2 q => spliceAt b2 q.1.dest
            (detail.convert_apply q.1.destType q.1.srcType q.1.arity q.2)) buf)
          b.dest (obyteLen b) = src) bound srcs := by
  intro bound
  induction bound with
  | nil =>
    intro srcs start buf _ hf _ _
    cases hf
    exact List.Forall₂.nil
  | cons b bs ih =>
    intro srcs start buf hseq hf hsame hlen
    cases hf with
    | cons hlen1 hftail =>
      rename_i src ss
      have hsame_b : b.srcType = b.destType := hsame b (List.mem_cons_self b bs)
      have hconv : detail.convert_apply b.destType b.srcType b.arity src = src := by
        rw [hsame_b]
        simp [detail.convert_apply]
      have hdest : b.dest = start := hseq.1
      have hsum : ((b :: bs).map obyteLen).sum = obyteLen b + (bs.map obyteLen).sum := by
        simp
      have hlen2 : start + (obyteLen b + (bs.map obyteLen).sum) ≤ buf.length := by
        rw [← hsum]
        exact hlen
      have hoffb : b.dest + src.length ≤ buf.length := by
        rw [hdest, hlen1]
        omega
      have hbuf1 : (spliceAt buf b.dest src).length = buf.length :=
        spliceAt_length hoffb
      have hbounds := seqFrom_dest_bounds bs (start + obyteLen b) hseq.2
      have hzip : ∀ q ∈ bs.zip ss, q.2.length = obyteLen q.1 := by
        rintro ⟨qa, qb⟩ hq
        exact (List.forall₂_iff_zip.1 hftail).2 hq
      rw [List.zip_cons_cons, List.foldl_cons, hconv]
      constructor
      · rw [foldl_splice_extract_frozen (bs.zip ss) _ b.dest (obyteLen b) ?_]
        · rw [← hlen1]
          exact extractBytes_spliceAt_self (by rw [hlen1, hdest]; omega)
        · intro q hq
          have hmem := List.of_mem_zip hq
          have hb1 := hbounds q.1 hmem.1
          have hql : q.2.length = obyteLen q.1 := hzip q hq
          have hqsame : q.1.srcType = q.1.destType :=
            hsame q.1 (List.mem_cons_of_mem b hmem.1)
          have hqconv : detail.convert_apply q.1.destType q.1.srcType q.1.arity q.2 = q.2 := by
            rw [hqsame]
            simp [detail.convert_apply]
          constructor
          · rw [hdest]
            omega
          · rw [hqconv, hbuf1, hql]
            omega
      · have := ih ss (start + obyteLen b) (spliceAt buf b.dest src) hseq.2 hftail
          (fun b2 hb2 => hsame b2 (List.mem_cons_of_mem b hb2)) ?_
        · exact this
        · rw [hbuf1]
          omega

/-! ### Round-trip infrastructure: the streams -/

theorem writeAll_fields :
    ∀ (recs : List (List (List Nat))) (s : prt_ofstream),
      (writeAll s recs).layout = s.layout ∧
      (writeAll s recs).boundChannels = s.boundChannels ∧
      (writeAll s recs).fileRecords
        = s.fileRecords ++ recs.map (assembleRecord s.layout.size s.boundChannels) := by
  intro recs
  induction recs with
  | nil =>
    intro s
    exact ⟨rfl, rfl, by simp [writeAll]⟩
  | cons r rs ih =>
    intro s
    unfold writeAll
    rw [List.foldl_cons]
    obtain ⟨h1, h2, h3⟩ := ih (s.write_next_particle r)
    refine ⟨h1, h2, ?_⟩
    unfold writeAll at h3
    rw [h3]
    simp [prt_ofstream.write_next_particle]

theorem is_compatible_refl : ∀ t, detail.is_compatible t t = true := by
  decide

/-- Successive same-typed `bind` calls extend the correspondence. -/
theorem obindAll_corr :
    ∀ (specs pre : List chan_spec) (s0 s : prt_ofstream),
      obind_corr pre s0 → obindAll s0 specs = .ok s → obind_corr (pre ++ specs) s := by
  intro specs
  induction specs with
  | nil =>
    intro pre s0 s h0 h
    unfold obindAll at h
    injection h with h2
    rw [← h2, List.append_nil]
    exact h0
  | cons sp rest ih =>
    intro pre s0 s h0 h
    unfold obindAll at h
    rcases hb : s0.bind sp.1 sp.2.1 sp.2.2 with e | s1
    · rw [hb] at h; cases h
    · rw [hb] at h
      have h1 : obind_corr (pre ++ [sp]) s1 := by
        obtain ⟨x2, hs1, hnone⟩ := bind_ok_shape hb
        subst hs1
        obtain ⟨hseq, htot, hrec, hcorr⟩ := h0
        refine ⟨?_, ?_, hrec, ?_⟩
        · exact seqFrom_append_one _ 0 _ hseq (by simpa [obyteLen] using htot)
        · simp only [List.map_append, List.sum_append, List.map_cons, List.sum_cons,
            List.map_nil, List.sum_nil]
          simp [htot, obyteLen]
        · apply forall₂_append
          · refine forall₂_mono ?_ hcorr
            intro a b hab
            obtain ⟨hsrc, hdest, har, x, hlook⟩ := hab
            exact ⟨hsrc, hdest, har, x, lookup_append_some hlook⟩
          · refine List.Forall₂.cons ⟨rfl, rfl, rfl, x2, ?_⟩ List.Forall₂.nil
            rw [lookup_append_none hnone]
            simp
      have := ih (pre ++ [sp]) s1 s h1 h
      simpa using this

/-- `ibindAll` succeeds on the reconstructed layout and produces the
read-side image of the write-side bindings. -/
theorem ibindAll_ok :
    ∀ (specs : List chan_spec) (obound : List obound_channel) (lay : prt_layout)
      (ib0 : List ibound_channel) (recsIn : List (List Nat)),
      List.Forall₂ (fun (sp : chan_spec) (b : obound_channel) =>
        b.srcType = sp.2.1 ∧ b.destType = sp.2.1 ∧ b.arity = sp.2.2 ∧
        (∃ x, lay.channelMap.lookup sp.1 = some ⟨b.dest, b.arity, b.destType, x⟩))
        specs obound →
      ibindAll ⟨lay, ib0, recsIn⟩ specs =
        .ok ⟨lay, ib0 ++ obound.map (fun b => ⟨b.arity, b.dest, b.destType, b.destType⟩),
             recsIn⟩ := by
  intro specs
  induction specs with
  | nil =>
    intro obound lay ib0 recsIn hf
    cases hf
    simp [ibindAll]
  | cons sp rest ih =>
    intro obound lay ib0 recsIn hf
    cases hf with
    | cons hhead htail =>
      rename_i b bs
      obtain ⟨hsrc, hdest, har, x, hlook⟩ := hhead
      unfold ibindAll prt_istream.bind
      simp only [hlook]
      have hcomp : detail.is_compatible sp.2.1 b.destType = true := by
        rw [← hdest]
        exact is_compatible_refl _
      rw [hcomp]
      simp only [Bool.not_true, Bool.false_eq_true, if_false]
      have harne : ¬ (sp.2.2 ≠ b.arity) := by
        rw [har]
        exact fun hne => hne rfl
      rw [decide_eq_false harne]
      simp only [Bool.false_eq_true, if_false]
      have := ih bs lay (ib0 ++ [⟨b.arity, b.dest, sp.2.1, b.destType⟩]) recsIn htail
      rw [this]
      simp only [List.append_assoc, List.map_cons, List.singleton_append]
      rw [hdest]

theorem readLoop_eval :
    ∀ (records : List (List Nat)) (lay : prt_layout) (ib : List ibound_channel),
      readLoop records.length ⟨lay, ib, records⟩ =
        records.map (fun r => ib.map (fun b =>
          detail.convert_apply b.T b.chType b.arity
            (extractBytes r b.src (data_types.sizes b.chType * b.arity)))) := by
  intro records
  induction records with
  | nil => intro lay ib; rfl
  | cons r rs ih =>
    intro lay ib
    simp only [List.length_cons, readLoop, prt_istream.read_next_particle, List.map_cons]
    rw [ih lay ib]

/-- C1: for every layout built from supported channels by successive `bind`
calls and every sequence of records, writing the records through the output
stream and reading them back through an input stream whose bindings have
exactly the channel types reproduces every bound value exactly: the
same-type converter is the verbatim byte copy, so the extracted byte lists
equal the written ones. -/
theorem roundtrip_same_type
    (specs : List chan_spec) (recs : List (List (List Nat))) (s : prt_ofstream)
    (hbind : obindAll prt_ofstream.init specs = .ok s)
    (hlens : ∀ rec ∈ recs, List.Forall₂
      (fun (b : obound_channel) (src : List Nat) => src.length = obyteLen b)
      s.boundChannels rec) :
    ∃ is : prt_istream,
      ibindAll (istreamOfWriter (writeAll s.openStream recs)) specs = .ok is ∧
      readLoop recs.length is = recs := by
  have hcorr : obind_corr specs s := by
    have := obindAll_corr specs [] prt_ofstream.init s
      ⟨trivial, rfl, rfl, List.Forall₂.nil⟩ hbind
    simpa using this
  obtain ⟨hseq, htot, hrec0, hf⟩ := hcorr
  obtain ⟨hwl, hwb, hwf⟩ := writeAll_fields recs s.openStream
  have hsame : ∀ b ∈ s.boundChannels, b.srcType = b.destType := by
    intro b hb
    obtain ⟨sp, _, hsrc, hdest, _⟩ := mem_right_of_forall₂ hf b hb
    rw [hsrc, hdest]
  -- the reader state produced by opening the written file
  have hopen_layout : s.openStream.layout = s.layout := rfl
  have hopen_bound : s.openStream.boundChannels = s.boundChannels := rfl
  have hopen_rec : s.openStream.fileRecords = s.fileRecords := rfl
  refine ⟨⟨s.layout,
    s.boundChannels.map (fun b => ⟨b.arity, b.dest, b.destType, b.destType⟩),
    recs.map (assembleRecord s.layout.size s.boundChannels)⟩, ?_, ?_⟩
  · have h1 : istreamOfWriter (writeAll s.openStream recs) =
        ⟨s.layout, [], recs.map (assembleRecord s.layout.size s.boundChannels)⟩ := by
      unfold istreamOfWriter
      rw [hwl, hwf, hopen_layout, hopen_rec, hrec0]
      rfl
    rw [h1]
    exact ibindAll_ok specs s.boundChannels s.layout [] _ hf
  · have hlenmap : (recs.map (assembleRecord s.layout.size s.boundChannels)).length
        = recs.length := List.length_map _ _
    rw [← hlenmap, readLoop_eval]
    have hpt : ∀ rec ∈ recs,
        (s.boundChannels.map
            (fun b => (⟨b.arity, b.dest, b.destType, b.destType⟩ : ibound_channel))).map
          (fun b => detail.convert_apply b.T b.chType b.arity
            (extractBytes (assembleRecord s.layout.size s.boundChannels rec)
              b.src (data_types.sizes b.chType * b.arity))) = rec := by
      intro rec hrecm
      simp only [List.map_map]
      have hx := assemble_extract s.boundChannels rec 0 (List.replicate s.layout.size 0)
        hseq (hlens rec hrecm) hsame
        (by simp [prt_layout.size, htot])
      rw [assembleRecord_eq_foldl]
      apply map_eq_of_forall₂
      refine forall₂_mono ?_ hx
      intro b src hextract
      simpa [Function.comp, detail.convert_apply, obyteLen] using hextract
    -- map over the records
    have hmap : ∀ l : List (List (List Nat)), (∀ rec ∈ l, rec ∈ recs) →
        (l.map (assembleRecord s.layout.size s.boundChannels)).map
          (fun r => (s.boundChannels.map
              (fun b => (⟨b.arity, b.dest, b.destType, b.destType⟩ : ibound_channel))).map
            (fun b => detail.convert_apply b.T b.chType b.arity
              (extractBytes r b.src (data_types.sizes b.chType * b.arity)))) = l := by
      intro l
      induction l with
      | nil => intro _; rfl
      | cons a l2 ih2 =>
        intro hsub
        simp only [List.map_cons]
        rw [ih2 (fun rec hr => hsub rec (List.mem_cons_of_mem a hr))]
        have hhead := hpt a (hsub a (List.mem_cons_self a l2))
        exact congrArg₂ List.cons hhead rfl
    exact hmap recs (fun rec hr => hr)

/-! ### Byte-level lemmas -/

theorem strBytes_length (s : String) : (strBytes s).length = s.length := by
  unfold strBytes
  rw [List.length_map]
  rfl

theorem meta_chunk_body_length (e : meta_entry) :
    (meta_chunk_body e).length = measure_meta_chunk e := by
  simp [meta_chunk_body, measure_meta_chunk, strBytes_length, le32i, le32]
  omega

theorem meta_chunk_bytes_length (e : meta_entry) :
    (meta_chunk_bytes e).length = 8 + measure_meta_chunk e := by
  simp [meta_chunk_bytes, meta_chunk_body_length, le32]
  omega

theorem chunks_bytes_length :
    ∀ entries : List meta_entry, (chunks_bytes entries).length = chunks_size_total entries := by
  intro entries
  induction entries with
  | nil => rfl
  | cons e es ih =>
    simp [chunks_bytes, chunks_size_total, meta_chunk_bytes_length] at *
    omega

theorem de32_le32 {n : Nat} (h : n < 4294967296) : de32 (le32 n) = n := by
  unfold de32 le32
  simp only [List.getD_cons_zero, List.getD_cons_succ]
  omega

theorem de32i_le32i {n : Int} (h1 : -2147483648 ≤ n) (h2 : n < 2147483648) :
    de32i (le32i n) = n := by
  unfold de32i le32i
  have hm : (0 : Int) ≤ n % 4294967296 := Int.emod_nonneg n (by decide)
  have hm2 : n % 4294967296 < 4294967296 := Int.emod_lt_of_pos n (by decide)
  have hnat : (n % 4294967296).toNat < 4294967296 := by omega
  rw [de32_le32 hnat]
  omega

theorem de64i_le64i {n : Int} (h1 : 0 ≤ n) (h2 : n < 9223372036854775808) :
    de64i (le64i n) = n := by
  have hm : n % 18446744073709551616 = n := by omega
  unfold de64i de64 le64i
  rw [hm]
  simp only [List.getD_cons_zero, List.getD_cons_succ]
  omega

theorem extractBytes_append_exact {a b c : List Nat} {n k : Nat}
    (ha : a.length = n) (hb : b.length = k) :
    extractBytes ((a ++ b) ++ c) n k = b := by
  rw [List.append_assoc]
  unfold extractBytes
  rw [List.drop_left' ha, List.take_left' hb]

theorem takeWhile_append_stop {p : Nat → Bool} :
    ∀ {l₁ : List Nat} {a : Nat} {l₂ : List Nat},
      (∀ x ∈ l₁, p x = true) → p a = false →
      (l₁ ++ a :: l₂).takeWhile p = l₁ := by
  intro l₁
  induction l₁ with
  | nil =>
    intro a l₂ _ hpa
    simp [List.takeWhile_cons, hpa]
  | cons x xs ih =>
    intro a l₂ hall hpa
    have hx : p x = true := hall x (List.mem_cons_self x xs)
    simp only [List.cons_append, List.takeWhile_cons, hx, if_true]
    rw [ih (fun y hy => hall y (List.mem_cons_of_mem x hy)) hpa]

theorem getline0_spec {s : String} {rest : List Nat}
    (h : ∀ c ∈ s.data, c.toNat ≠ 0) :
    getline0 (strBytes s ++ (0 :: rest)) = (strBytes s, rest) := by
  unfold getline0
  have htw : (strBytes s ++ (0 :: rest)).takeWhile (fun b => decide (b ≠ 0)) = strBytes s := by
    apply takeWhile_append_stop
    · intro x hx
      simp only [strBytes, List.mem_map] at hx
      obtain ⟨c, hc, hcx⟩ := hx
      simp [← hcx, h c hc]
    · simp
  rw [htw]
  have hsplit : strBytes s ++ (0 :: rest) = (strBytes s ++ [0]) ++ rest := by
    simp
  rw [hsplit, List.drop_left' (by simp)]

theorem strOfBytes_strBytes (s : String) : strOfBytes (strBytes s) = s := by
  unfold strOfBytes strBytes
  rw [List.map_map]
  have hmap : s.data.map (Char.ofNat ∘ Char.toNat) = s.data := by
    have hfun : (Char.ofNat ∘ Char.toNat) = id := by
      funext c
      simp [Function.comp, Char.ofNat_toNat]
    rw [hfun, List.map_id]
  rw [hmap]

theorem entry_wf_unpack {e : meta_entry} (h : entry_wf e = true) :
    -1 ≤ e.valueType ∧ e.valueType < 11 ∧
    (e.channelName = "" ∨ detail.is_valid_channel_name e.channelName = true) ∧
    detail.is_valid_channel_name e.valueName = true ∧
    (∀ c ∈ e.channelName.data, c.toNat ≠ 0) ∧
    (∀ c ∈ e.valueName.data, c.toNat ≠ 0) ∧
    measure_meta_chunk e < 2147483648 := by
  unfold entry_wf at h
  simp only [Bool.and_eq_true, Bool.or_eq_true, decide_eq_true_eq, List.all_eq_true] at h
  obtain ⟨⟨⟨⟨⟨⟨h1, h2⟩, h3⟩, h4⟩, h5⟩, h6⟩, h7⟩ := h
  refine ⟨h1, h2, h3, h4, ?_, ?_, h7⟩
  · intro c hc
    have := h5 c hc
    simp only [Bool.and_eq_true, decide_eq_true_eq] at this
    exact this.1
  · intro c hc
    have := h6 c hc
    simp only [Bool.and_eq_true, decide_eq_true_eq] at this
    exact this.1

/-- `read_meta_chunk` parses back exactly the chunk body the writer
emitted, consuming exactly the declared chunk length. -/
theorem read_meta_chunk_spec (e : meta_entry) (rest : List Nat)
    (hwf : entry_wf e = true) :
    read_meta_chunk (measure_meta_chunk e) (meta_chunk_body e ++ rest)
      = .ok (some e, measure_meta_chunk e) := by
  obtain ⟨ht1, ht2, hchv, hvv, hch0, hv0, hmb⟩ := entry_wf_unpack hwf
  have hb : meta_chunk_body e ++ rest
      = strBytes e.channelName ++ (0 :: (strBytes e.valueName ++ (0 ::
          (le32i e.valueType ++ (e.valueBytes ++ rest))))) := by
    simp [meta_chunk_body]
  have h1 : getline0 (meta_chunk_body e ++ rest)
      = (strBytes e.channelName, strBytes e.valueName ++ (0 ::
          (le32i e.valueType ++ (e.valueBytes ++ rest)))) := by
    rw [hb]
    exact getline0_spec hch0
  have h2 : getline0 (strBytes e.valueName ++ (0 ::
        (le32i e.valueType ++ (e.valueBytes ++ rest))))
      = (strBytes e.valueName, le32i e.valueType ++ (e.valueBytes ++ rest)) :=
    getline0_spec hv0
  have htk : (le32i e.valueType ++ (e.valueBytes ++ rest)).take 4 = le32i e.valueType :=
    List.take_left' rfl
  have hdp : (le32i e.valueType ++ (e.valueBytes ++ rest)).drop 4 = e.valueBytes ++ rest :=
    List.drop_left' rfl
  have hty : de32i (le32i e.valueType) = e.valueType :=
    de32i_le32i (by omega) (by omega)
  have hrem : measure_meta_chunk e - ((strBytes e.channelName).length + 1 +
      ((strBytes e.valueName).length + 1) + 4) = e.valueBytes.length := by
    rw [strBytes_length, strBytes_length]
    unfold measure_meta_chunk
    omega
  unfold read_meta_chunk
  simp only [h1, h2, htk, hdp, hty]
  rw [if_neg (by omega)]
  rw [hrem]
  rw [List.take_left' rfl]
  have hname1 : (decide ((strBytes e.channelName) ≠ []) &&
      !detail.is_valid_channel_name (strOfBytes (strBytes e.channelName))) = false := by
    rcases hchv with hc | hc
    · rw [hc]
      simp [strBytes]
    · rw [strOfBytes_strBytes, hc]
      simp
  have hname2 : (!detail.is_valid_channel_name (strOfBytes (strBytes e.valueName))) = false := by
    rw [strOfBytes_strBytes, hvv]
    rfl
  rw [hname1]
  simp only [Bool.false_eq_true, if_false]
  rw [hname2]
  simp only [Bool.false_eq_true, if_false]
  rw [strOfBytes_strBytes, strOfBytes_strBytes]
  have hkeq : (strBytes e.channelName).length + 1 + ((strBytes e.valueName).length + 1) + 4 +
      e.valueBytes.length = measure_meta_chunk e := by
    rw [strBytes_length, strBytes_length]
    unfold measure_meta_chunk
    omega
  rw [hkeq]

theorem chunks_size_total_ge (entries : List meta_entry) :
    entries.length ≤ chunks_size_total entries := by
  unfold chunks_size_total
  induction entries with
  | nil => simp
  | cons e es ih =>
    simp only [List.map_cons, List.sum_cons, List.length_cons]
    simp only [List.length_map] at ih ⊢
    omega

/-- The chunk loop parses back exactly the chunk sequence the writer
emitted, leaving whatever follows the stop chunk unread. -/
theorem read_chunks_fuel_spec :
    ∀ (entries : List meta_entry) (rest : List Nat) (fuel : Nat),
      entries.all entry_wf = true → entries.length + 1 ≤ fuel →
      read_chunks_fuel fuel (chunks_bytes entries ++ rest) = .ok (entries, rest) := by
  intro entries
  induction entries with
  | nil =>
    intro rest fuel _ hfuel
    match fuel, hfuel with
    | fuel + 1, _ =>
      show read_chunks_fuel (fuel + 1) (chunks_bytes [] ++ rest) = .ok ([], rest)
      have hassoc : chunks_bytes [] ++ rest
          = le32 prt_stop_chunk ++ (le32 0 ++ rest) := by
        simp [chunks_bytes, stop_chunk_bytes]
      rw [hassoc]
      unfold read_chunks_fuel
      rw [if_neg (by simp [le32])]
      rw [List.take_left' (show (le32 prt_stop_chunk).length = 4 from rfl),
        de32_le32 (by decide)]
      rw [if_pos rfl]
      have hdrop : (le32 prt_stop_chunk ++ (le32 0 ++ rest)).drop 8 = rest := by
        rw [show le32 prt_stop_chunk ++ (le32 0 ++ rest)
            = (le32 prt_stop_chunk ++ le32 0) ++ rest from by simp]
        exact List.drop_left' (by simp [le32])
      rw [hdrop]
  | cons e es ih =>
    intro rest fuel hwf hfuel
    have hwfe : entry_wf e = true := by
      simp only [List.all_cons, Bool.and_eq_true] at hwf
      exact hwf.1
    have hwfes : es.all entry_wf = true := by
      simp only [List.all_cons, Bool.and_eq_true] at hwf
      exact hwf.2
    obtain ⟨_, _, _, _, _, _, hmb⟩ := entry_wf_unpack hwfe
    match fuel, hfuel with
    | fuel + 1, hfuel =>
      show read_chunks_fuel (fuel + 1) (chunks_bytes (e :: es) ++ rest) = .ok (e :: es, rest)
      have hassoc : chunks_bytes (e :: es) ++ rest
          = le32 prt_meta_chunk ++ (le32 (measure_meta_chunk e) ++
              (meta_chunk_body e ++ (chunks_bytes es ++ rest))) := by
        simp [chunks_bytes, meta_chunk_bytes, List.append_assoc]
      rw [hassoc]
      unfold read_chunks_fuel
      rw [if_neg (by simp [le32])]
      rw [List.take_left' (show (le32 prt_meta_chunk).length = 4 from rfl),
        de32_le32 (by decide)]
      rw [if_neg (by decide)]
      rw [if_pos rfl]
      have hd4 : (le32 prt_meta_chunk ++ (le32 (measure_meta_chunk e) ++
          (meta_chunk_body e ++ (chunks_bytes es ++ rest)))).drop 4
          = le32 (measure_meta_chunk e) ++ (meta_chunk_body e ++ (chunks_bytes es ++ rest)) :=
        List.drop_left' rfl
      rw [hd4, List.take_left' (show (le32 (measure_meta_chunk e)).length = 4 from rfl)]
      rw [de32_le32 (by omega)]
      have hd8 : (le32 prt_meta_chunk ++ (le32 (measure_meta_chunk e) ++
          (meta_chunk_body e ++ (chunks_bytes es ++ rest)))).drop 8
          = meta_chunk_body e ++ (chunks_bytes es ++ rest) := by
        rw [show le32 prt_meta_chunk ++ (le32 (measure_meta_chunk e) ++
            (meta_chunk_body e ++ (chunks_bytes es ++ rest)))
            = (le32 prt_meta_chunk ++ le32 (measure_meta_chunk e)) ++
              (meta_chunk_body e ++ (chunks_bytes es ++ rest)) from by simp]
        exact List.drop_left' (by simp [le32])
      rw [hd8]
      rw [read_meta_chunk_spec e (chunks_bytes es ++ rest) hwfe]
      have hdm : (meta_chunk_body e ++ (chunks_bytes es ++ rest)).drop (measure_meta_chunk e)
          = chunks_bytes es ++ rest :=
        List.drop_left' (meta_chunk_body_length e)
      dsimp only
      rw [hdm]
      rw [ih rest fuel hwfes (by simp only [List.length_cons] at hfuel; omega)]
      rfl

theorem read_chunks_spec (entries : List meta_entry) (rest : List Nat)
    (hwf : entries.all entry_wf = true) :
    read_chunks (chunks_bytes entries ++ rest) = .ok (entries, rest) := by
  unfold read_chunks
  apply read_chunks_fuel_spec entries rest _ hwf
  have h1 := chunks_bytes_length entries
  have h2 := chunks_size_total_ge entries
  simp only [List.length_append, h1]
  omega

theorem header_fixed_bytes_length (hl : Nat) : (header_fixed_bytes hl).length = 56 := rfl

/-- Bytes 48..55 of any file starting with the fixed header are the -1
particle-count placeholder. -/
theorem header_count_placeholder (hl : Nat) (rest : List Nat) :
    extractBytes (header_fixed_bytes hl ++ rest) 48 8 = le64i (-1) := by
  unfold header_fixed_bytes
  exact extractBytes_append_exact rfl rfl

/-- Bytes 44..47 of any file starting with the fixed header are the version
value 2. -/
theorem header_version_field (hl : Nat) (rest : List Nat) :
    extractBytes (header_fixed_bytes hl ++ rest) 44 4 = le32 2 := by
  unfold header_fixed_bytes
  rw [List.append_assoc]
  exact extractBytes_append_exact rfl rfl

/-- `set_boundbox` always leaves a file-scope BoundBox entry, so
`write_header` always records its position. -/
theorem boundbox_pos_set :
    ∀ (entries : List meta_entry) (pos : Nat),
      ∃ p, boundbox_value_pos pos (set_boundbox entries) = some p := by
  intro entries
  induction entries with
  | nil =>
    intro pos
    refine ⟨pos + 8 + (("" : String).length + 1) + (("BoundBox" : String).length + 1) + 4, ?_⟩
    dsimp only [set_boundbox, boundbox_value_pos]
    rw [if_pos ⟨rfl, rfl⟩]
  | cons e es ih =>
    intro pos
    unfold set_boundbox
    by_cases hc : e.channelName = "" ∧ e.valueName = "BoundBox"
    · rw [if_pos hc]
      refine ⟨pos + 8 + (("" : String).length + 1) + (("BoundBox" : String).length + 1) + 4, ?_⟩
      dsimp only [boundbox_value_pos]
      rw [if_pos ⟨rfl, rfl⟩]
    · rw [if_neg hc]
      obtain ⟨p, hp⟩ := ih (pos + 8 + measure_meta_chunk e)
      refine ⟨p, ?_⟩
      dsimp only [boundbox_value_pos]
      rw [if_neg hc]
      exact hp

/-- A successful byte-level `open` yields the header with the version-2
fixed part, the chunks, the reserved int, the channel table, the
particle-count position 48 and the recorded BoundBox value position. -/
theorem ofile_open_shape {entries : List meta_entry} {l : prt_layout} {st : ofile_state}
    (h : ofile_open entries l = .ok st) :
    ∃ table bb,
      st.fileBytes = header_fixed_bytes (56 + chunks_size_total (set_boundbox entries)) ++
        (chunks_bytes (set_boundbox entries) ++
          (le32 4 ++ (le32 l.num_channels ++ (le32 44 ++ table)))) ∧
      st.countLocation = 48 ∧
      boundbox_value_pos 56 (set_boundbox entries) = some bb ∧
      st.boundBoxLocation = bb ∧
      st.particleCount = 0 := by
  unfold ofile_open at h
  rcases hw : write_header_bytes (set_boundbox entries) l with e2 | ⟨bytes, cl, bb⟩
  · rw [hw] at h
    cases h
  · rw [hw] at h
    injection h with h2
    unfold write_header_bytes at hw
    split at hw
    · cases hw
    · rcases hcr : channel_records l l.channels with e3 | table
      · rw [hcr] at hw
        cases hw
      · rw [hcr] at hw
        injection hw with hw2
        injection hw2 with hb hrest
        injection hrest with hc hbb
        subst hb
        subst hc
        subst hbb
        subst h2
        obtain ⟨p, hp⟩ := boundbox_pos_set entries 56
        exact ⟨table, p, rfl, rfl, hp, by simp [hp], rfl⟩

theorem ofile_write_foldl :
    ∀ (chunksList : List (List Nat)) (st : ofile_state),
      ∃ tail, chunksList.foldl ofile_write st =
        ⟨st.fileBytes ++ tail, st.countLocation, st.boundBoxLocation,
         st.particleCount + chunksList.length⟩ := by
  intro chunksList
  induction chunksList with
  | nil =>
    intro st
    refine ⟨[], ?_⟩
    simp
  | cons c cs ih =>
    intro st
    obtain ⟨tail, htail⟩ := ih (ofile_write st c)
    refine ⟨c ++ tail, ?_⟩
    rw [List.foldl_cons, htail]
    simp [ofile_write, List.append_assoc]
    omega

theorem chunks_size_total_cons (e : meta_entry) (es : List meta_entry) :
    chunks_size_total (e :: es) = 8 + measure_meta_chunk e + chunks_size_total es := by
  unfold chunks_size_total
  simp only [List.map_cons, List.sum_cons]
  omega

/-- The BoundBox value position `write_header` remembers lies strictly
inside the metadata section: at least 22 bytes past its start and with 24
payload bytes before the section ends. -/
theorem boundbox_value_pos_bounds :
    ∀ (entries : List meta_entry) (pos bb : Nat),
      boundbox_value_pos pos (set_boundbox entries) = some bb →
      pos + 22 ≤ bb ∧ bb + 24 ≤ pos + chunks_size_total (set_boundbox entries) := by
  intro entries
  induction entries with
  | nil =>
    intro pos bb h
    dsimp only [set_boundbox, boundbox_value_pos] at h
    rw [if_pos ⟨rfl, rfl⟩] at h
    injection h with h
    subst h
    have h1 : ("" : String).length = 0 := rfl
    have h2 : ("BoundBox" : String).length = 8 := rfl
    have h3 : chunks_size_total (set_boundbox []) = 54 := by decide
    rw [h3]
    rw [h1, h2]
    omega
  | cons e es ih =>
    intro pos bb h
    dsimp only [set_boundbox] at h ⊢
    by_cases hc : e.channelName = "" ∧ e.valueName = "BoundBox"
    · rw [if_pos hc] at h ⊢
      dsimp only [boundbox_value_pos] at h
      rw [if_pos ⟨rfl, rfl⟩] at h
      injection h with h
      subst h
      have h1 : ("" : String).length = 0 := rfl
      have h2 : ("BoundBox" : String).length = 8 := rfl
      have hm : measure_meta_chunk ⟨"", "BoundBox", 4, boundbox_placeholder_bytes⟩ = 38 := by
        decide
      rw [chunks_size_total_cons, hm]
      rw [h1, h2]
      omega
    · rw [if_neg hc] at h ⊢
      dsimp only [boundbox_value_pos] at h
      rw [if_neg hc] at h
      obtain ⟨h1, h2⟩ := ih (pos + 8 + measure_meta_chunk e) bb h
      rw [chunks_size_total_cons]
      omega

/-- C4 counterexample: the cited reader parses the self-delimited chunk
sequence when `version > 1` and parses no metadata at all when
`version <= 1`, and the writer emits version 2 together with the chunk
format: on a metadata section holding one chunk and the stop chunk, the
version-1 read returns no entries (it skips `headerLength - 56` bytes),
the version-2 read returns the entry; the header `open()` writes carries
version value 2 at byte 44 and a `Meta` chunk tag (not a fixed-count
metadata table) right after the fixed header. -/
theorem metadata_version_branch_cex :
    read_metadata_section 1 (56 + chunks_size_total [demo_entry]) (chunks_bytes [demo_entry])
      = .ok ([], []) ∧
    read_metadata_section 2 (56 + chunks_size_total [demo_entry]) (chunks_bytes [demo_entry])
      = .ok ([demo_entry], []) ∧
    ofile_open [] prt_layout.init = .ok c4_state ∧
    extractBytes c4_state.fileBytes 44 4 = le32 2 ∧
    extractBytes c4_state.fileBytes 56 8 = le32 prt_meta_chunk ++ le32 38 := by
  refine ⟨by decide, by decide, by decide, by decide, by decide⟩

/-- C4 amended: header metadata branches on the version tag as follows: for
every file with version <= 1 the reader parses no metadata section (it
skips `headerLength - 56` bytes); for every file with version >= 2 the
section after the particle count is the self-delimited sequence of typed
metadata chunks terminated by the stop chunk, which the reader parses
exactly under that version condition, recovering every well-formed written
entry; and the writer emits the version value 2 into the header together
with the chunk-sequence metadata format that the version >= 2 read path
parses. -/
theorem metadata_chunk_format_amended :
    (∀ (version : Int) (headerLength : Nat) (input : List Nat), version ≤ 1 →
      read_metadata_section version headerLength input
        = .ok ([], input.drop (headerLength - 56))) ∧
    (∀ (version : Int) (headerLength : Nat) (entries : List meta_entry) (rest : List Nat),
      2 ≤ version → entries.all entry_wf = true →
      read_metadata_section version headerLength (chunks_bytes entries ++ rest)
        = .ok (entries, rest)) ∧
    (∀ (entries : List meta_entry) (l : prt_layout) (st : ofile_state),
      ofile_open entries l = .ok st →
      extractBytes st.fileBytes 44 4 = le32 2 ∧
      ∃ tail, st.fileBytes
        = header_fixed_bytes (56 + chunks_size_total (set_boundbox entries))
          ++ (chunks_bytes (set_boundbox entries) ++ tail)) := by
  refine ⟨?_, ?_, ?_⟩
  · intro v hl input hv
    unfold read_metadata_section
    rw [if_pos hv]
  · intro v hl entries rest hv hwf
    unfold read_metadata_section
    rw [if_neg (by omega)]
    exact read_chunks_spec entries rest hwf
  · intro entries l st h
    obtain ⟨table, bb, hfb, _, _, _, _⟩ := ofile_open_shape h
    constructor
    · rw [hfb]
      exact header_version_field _ _
    · exact ⟨le32 4 ++ (le32 l.num_channels ++ (le32 44 ++ table)), hfb⟩

/-- C4 witness: the amended theorem evaluated at version 1 on a padded
header, at version 2 on a one-entry chunk sequence, and on the header the
writer produces for an empty stream. -/
theorem metadata_chunk_format_amended_witness :
    read_metadata_section 1 60 [9, 9, 9, 9, 9, 9] = .ok ([], [9, 9]) ∧
    read_metadata_section 2 0 (chunks_bytes [demo_entry] ++ [7]) = .ok ([demo_entry], [7]) ∧
    (extractBytes c4_state.fileBytes 44 4 = le32 2 ∧
      ∃ tail, c4_state.fileBytes
        = header_fixed_bytes (56 + chunks_size_total (set_boundbox []))
          ++ (chunks_bytes (set_boundbox []) ++ tail)) := by
  refine ⟨?_, ?_, ?_⟩
  · have := metadata_chunk_format_amended.1 1 60 [9, 9, 9, 9, 9, 9] (by decide)
    simpa using this
  · exact metadata_chunk_format_amended.2.1 2 0 [demo_entry] [7] (by decide) (by decide)
  · exact metadata_chunk_format_amended.2.2 [] prt_layout.init c4_state (by decide)

/-- C5: for every output stream and every number n of record writes made
between `open()` and `close()`, the particle-count field patched into the
header by `close()` at the remembered position 48 equals exactly n,
replacing the -1 placeholder written at `open()`.  The per-record deflate
output, the final flush and the finalized bounds bytes are opaque. -/
theorem particle_count_patched
    (entries : List meta_entry) (l : prt_layout) (st0 : ofile_state)
    (chunksList : List (List Nat)) (finalChunk boundsBytes : List Nat)
    (hopen : ofile_open entries l = .ok st0)
    (hn : (chunksList.length : Int) < 9223372036854775808) :
    extractBytes st0.fileBytes 48 8 = le64i (-1) ∧
    de64i (extractBytes
      (ofile_close (chunksList.foldl ofile_write st0) finalChunk boundsBytes).fileBytes
      48 8) = chunksList.length := by
  obtain ⟨table, bb, hfb, hcl, hbbpos, hbbeq, hpc⟩ := ofile_open_shape hopen
  have hlen0 : 56 + chunks_size_total (set_boundbox entries) ≤ st0.fileBytes.length := by
    rw [hfb]
    simp only [List.length_append, header_fixed_bytes_length, chunks_bytes_length]
    omega
  obtain ⟨hbb1, hbb2⟩ := boundbox_value_pos_bounds _ _ _ hbbpos
  have hbb2b : bb ≤ 56 + chunks_size_total (set_boundbox entries) := by omega
  constructor
  · rw [hfb]
    exact header_count_placeholder _ _
  · obtain ⟨tail, hfold⟩ := ofile_write_foldl chunksList st0
    rw [hfold]
    unfold ofile_close
    dsimp only
    rw [hcl, hbbeq, hpc]
    rw [if_pos (by omega : (0 : Nat) < 48)]
    rw [if_pos (by omega : 0 < bb)]
    have hF1 : 56 + chunks_size_total (set_boundbox entries)
        ≤ ((st0.fileBytes ++ tail) ++ finalChunk).length := by
      simp only [List.length_append]
      omega
    have hl8 : (le64i ((0 + chunksList.length : Nat) : Int)).length = 8 := rfl
    have hF2len : (spliceAt ((st0.fileBytes ++ tail) ++ finalChunk) 48
        (le64i ((0 + chunksList.length : Nat) : Int))).length
        = ((st0.fileBytes ++ tail) ++ finalChunk).length := by
      apply spliceAt_length
      rw [hl8]
      omega
    rw [extractBytes_spliceAt_of_le (by omega) (by rw [hF2len]; omega)]
    rw [show (8 : Nat) = (le64i ((0 + chunksList.length : Nat) : Int)).length from rfl]
    rw [extractBytes_spliceAt_self (by rw [hl8]; omega)]
    rw [de64i_le64i (by omega) (by push_cast; omega)]
    push_cast
    ring

/-- C5 witness: two records written through the byte-level stream opened
with no user metadata and an empty layout; the patched count field decodes
to 2, and the field right after open decodes from the -1 placeholder. -/
theorem particle_count_patched_witness :
    extractBytes c4_state.fileBytes 48 8 = le64i (-1) ∧
    de64i (extractBytes
      (ofile_close ([[1], [2]].foldl ofile_write c4_state) [3] (List.replicate 24 9)).fileBytes
      48 8) = ([[1], [2]] : List (List Nat)).length :=
  particle_count_patched [] prt_layout.init c4_state [[1], [2]] [3] (List.replicate 24 9)
    (by decide) (by decide)

/-- C1 witness: one float32 arity-3 `Position` channel, one record of twelve
bytes, round-tripped intact. -/
theorem roundtrip_same_type_witness :
    ∃ is : prt_istream,
      ibindAll (istreamOfWriter (writeAll posBoundStream.openStream
        [[[1, 2, 3, 4, 5, 6, 7, 8, 9, 10, 11, 12]]])) [("Position", .type_float32, 3)]
        = .ok is ∧
      readLoop 1 is = [[[1, 2, 3, 4, 5, 6, 7, 8, 9, 10, 11, 12]]] := by
  have h := roundtrip_same_type [("Position", .type_float32, 3)]
    [[[1, 2, 3, 4, 5, 6, 7, 8, 9, 10, 11, 12]]] posBoundStream (by decide) ?_
  · exact h
  · intro rec hrec
    rw [List.mem_singleton] at hrec
    subst hrec
    exact List.Forall₂.cons (by decide) List.Forall₂.nil

end prt
